import Mathlib

/-!
Shallow embedding of the gemini-tools crawler core
(`internal/crawler/crawler.go` and `internal/gemini/gemini.go`).

Go strings are modelled as lists of characters (`Str`).  The crawler calls
Go's `net/url.Parse`; that library function is modelled here (`parseURL`)
following the net/url source: fragment split at the first `#`, scheme scan,
query split at the first `?`, authority/opaque/path split, percent-escape
decoding of path and fragment, and host validation (bracketed-host and
trailing-port checks, percent-escape restrictions for hosts).  Out of the
model's scope, documented per definition: the control-character scan,
userinfo validation, IPv6 zone (`%25`) special-casing inside brackets, and
Unicode (non-ASCII) case mapping; none of the concrete inputs used below
exercise these.
-/

set_option maxRecDepth 16000

/-- Go strings are modelled as lists of characters. -/
abbrev Str := List Char

/-- Literal Go string as a character list. -/
def gostr (s : String) : Str := s.data

/-- ASCII whitespace test modelling `unicode.IsSpace` on the characters
relevant here (space, tab, newline, carriage return). -/
def isSpaceChar (c : Char) : Bool := c == ' ' || c == '\t' || c == '\n' || c == '\r'

/-- Model of `strings.TrimSpace`. -/
def trimSpace (s : Str) : Str :=
  ((s.dropWhile isSpaceChar).reverse.dropWhile isSpaceChar).reverse

/-- Model of `strings.Cut` at a single character: the parts before and after
the first occurrence of `sep`, or `none` when `sep` does not occur. -/
def cutChar (sep : Char) : Str → Option (Str × Str)
  | [] => none
  | c :: rest =>
    if c = sep then some ([], rest)
    else (cutChar sep rest).map (fun p => (c :: p.1, p.2))

/-- Model of net/url's `split(s, sep, false)`: the part before the first
occurrence of `sep` and the rest including `sep` (`(s, "")` when absent). -/
def splitKeepChar (sep : Char) : Str → (Str × Str)
  | [] => ([], [])
  | c :: rest =>
    if c = sep then ([], c :: rest)
    else
      let p := splitKeepChar sep rest
      (c :: p.1, p.2)

/-- Model of `strings.Contains` with a substring needle. -/
def containsSub (needle : Str) : Str → Bool
  | [] => needle.isEmpty
  | c :: rest => needle.isPrefixOf (c :: rest) || containsSub needle rest

/-- Model of `strings.ToLower` (ASCII case mapping; Go's Unicode case
mapping agrees with it on ASCII input). -/
def toLowerStr (s : Str) : Str := s.map Char.toLower

/-- The part of `s` strictly after the last occurrence of `sep`, when `sep`
occurs (models `strings.LastIndex` based suffix extraction). -/
def afterLastChar (sep : Char) (s : Str) : Option Str :=
  if s.contains sep then some ((s.reverse.takeWhile (fun c => c != sep)).reverse)
  else none

/-- The part of `s` strictly before the last occurrence of `sep`
(meaningful when `sep` occurs). -/
def beforeLastChar (sep : Char) (s : Str) : Str :=
  (((s.reverse.dropWhile (fun c => c != sep)).drop 1)).reverse

/-- Hex digit value, as in net/url `unhex`. -/
def hexVal (c : Char) : Option Nat :=
  if c.isDigit then some (c.toNat - '0'.toNat)
  else if 'a' ≤ c ∧ c ≤ 'f' then some (c.toNat - 'a'.toNat + 10)
  else if 'A' ≤ c ∧ c ≤ 'F' then some (c.toNat - 'A'.toNat + 10)
  else none

/-- Model of net/url `unescape` in `encodePath`/`encodeFragment` mode:
decodes `%XX` escapes, failing on malformed escapes. -/
def unescapePath : Str → Option Str
  | [] => some []
  | c :: rest =>
    if c = '%' then
      match rest with
      | h1 :: h2 :: rest2 =>
        match hexVal h1, hexVal h2 with
        | some a, some b => (unescapePath rest2).map (fun t => Char.ofNat (16 * a + b) :: t)
        | _, _ => none
      | _ => none
    else (unescapePath rest).map (fun t => c :: t)

/-- Model of net/url `unescape` in `encodeHost` mode: only `%25` and escapes
of byte values `0x80` and above are accepted (first hex digit below 8 and
escape not literally `%25` is an error, as in the Go source). -/
def unescapeHost : Str → Option Str
  | [] => some []
  | c :: rest =>
    if c = '%' then
      match rest with
      | h1 :: h2 :: rest2 =>
        match hexVal h1, hexVal h2 with
        | some a, some b =>
          if a < 8 ∧ ¬(h1 = '2' ∧ h2 = '5') then none
          else (unescapeHost rest2).map (fun t => Char.ofNat (16 * a + b) :: t)
        | _, _ => none
      | _ => none
    else (unescapeHost rest).map (fun t => c :: t)

/-- Model of net/url `validOptionalPort`: empty, or a colon followed by
decimal digits only. -/
def validOptionalPort (p : Str) : Bool :=
  match p with
  | [] => true
  | ':' :: digits => digits.all Char.isDigit
  | _ => false

/-- The checks performed by net/url `parseHost` before unescaping: a
bracketed host must contain `]` and carry a valid optional port after the
last `]`; otherwise the suffix from the last `:` must be a valid port. -/
def hostOK (h : Str) : Bool :=
  if (gostr "[").isPrefixOf h then
    match afterLastChar ']' h with
    | none => false
    | some after => validOptionalPort after
  else
    match afterLastChar ':' h with
    | none => true
    | some after => validOptionalPort (':' :: after)

/-- Model of net/url `parseHost` (IPv6 zone `%25` special-casing inside
brackets is not modelled; faithful for hosts without percent-escapes). -/
def parseHost (h : Str) : Option Str :=
  if hostOK h then unescapeHost h else none

/-- Model of net/url `parseAuthority`: the host is the part after the last
`@` (userinfo validation is not modelled; faithful for authorities without
userinfo). -/
def parseAuthority (auth : Str) : Option Str :=
  match afterLastChar '@' auth with
  | none => parseHost auth
  | some hostPart => parseHost hostPart

/-- Model of the parsed `url.URL` fields the crawler reads. -/
structure GoURL where
  scheme : Str
  opq : Str
  host : Str
  path : Str
  rawQuery : Str
  fragment : Str
deriving DecidableEq, Repr

/-- Model of net/url `getScheme`: scans for `:` over scheme characters,
returning the (lowercased) scheme and the rest, or no scheme at all; a
leading `:` is an error. -/
def getSchemeAux (orig : Str) : Str → Str → Option (Str × Str)
  | _acc, [] => some ([], orig)
  | acc, c :: rest =>
    if c.isAlpha then getSchemeAux orig (acc ++ [c]) rest
    else if c.isDigit || c == '+' || c == '-' || c == '.' then
      if acc = [] then some ([], orig) else getSchemeAux orig (acc ++ [c]) rest
    else if c = ':' then
      if acc = [] then none else some (toLowerStr acc, rest)
    else some ([], orig)

/-- Scheme extraction entry point (see `getSchemeAux`). -/
def getScheme (s : Str) : Option (Str × Str) := getSchemeAux s [] s

/-- The query split of net/url `parse`: the `ForceQuery` trailing-`?` case
(collapsed to an empty raw query, which the crawler never distinguishes),
else a cut at the first `?`. -/
def querySplit (rest : Str) : Str × Str :=
  if rest.getLast? = some '?' ∧ ¬(rest.dropLast.contains '?') then
    (rest.dropLast, [])
  else
    match cutChar '?' rest with
    | none => (rest, [])
    | some (a, b) => (a, b)

/-- Model of net/url `parse` on the fragment-free part: query split,
opaque/rootless handling, the colon-in-first-segment check for
scheme-less URLs, authority parsing, and path unescaping. -/
def parseNoFrag (s : Str) : Option GoURL := do
  let (scheme, rest) ← getScheme s
  let (rest, query) := querySplit rest
  if ¬ (gostr "/").isPrefixOf rest then
    if scheme ≠ [] then
      pure { scheme := scheme, opq := rest, host := [], path := [],
             rawQuery := query, fragment := [] }
    else if ((splitKeepChar '/' rest).1).contains ':' then
      none
    else do
      let path ← unescapePath rest
      pure { scheme := [], opq := [], host := [], path := path,
             rawQuery := query, fragment := [] }
  else if (gostr "//").isPrefixOf rest then do
    let (auth, rest2) := splitKeepChar '/' (rest.drop 2)
    let host ← parseAuthority auth
    let path ← unescapePath rest2
    pure { scheme := scheme, opq := [], host := host, path := path,
           rawQuery := query, fragment := [] }
  else do
    let path ← unescapePath rest
    pure { scheme := scheme, opq := [], host := [], path := path,
           rawQuery := query, fragment := [] }

/-- Model of `net/url.Parse`: fragment split at the first `#`, then
`parseNoFrag`, then fragment decoding (the control-character scan is not
modelled; none of the crawler's canonical outputs contain control
characters unless the input had percent-escapes for them). -/
def parseURL (s : Str) : Option GoURL := do
  let (core, fragOpt) :=
    match cutChar '#' s with
    | none => (s, none)
    | some (a, b) => (a, some b)
  let u ← parseNoFrag core
  match fragOpt with
  | none => pure u
  | some f =>
    if f = [] then pure u
    else do
      let d ← unescapePath f
      pure { u with fragment := d }

/-- Go constant `gemini.Port`. -/
def geminiPort : Str := gostr "1965"

/-- Go constant `gemini.GeminiMediaType`. -/
def GeminiMediaType : Str := gostr "text/gemini"

/-- The default-port stripping inside `canonicalString` (crawler.go:439-445):
if the host contains `:` and the part after the first `:` is `1965`, keep
only the part before it. -/
def stripDefaultPort (host : Str) : Str :=
  if host.contains ':' then
    match cutChar ':' host with
    | some (h, p) => if p = geminiPort then h else host
    | none => host
  else host

/-- Translation of `canonicalString` (crawler.go:437-460). -/
def canonicalString (u : GoURL) : Str :=
  gostr "gemini://" ++ stripDefaultPort u.host ++
    (if u.path = [] then gostr "/" else u.path) ++
    (if u.rawQuery ≠ [] then '?' :: u.rawQuery else [])

/-- The post-parse steps of `(*Crawler).normalizeURL` (crawler.go:419-434):
default the scheme to gemini, reject other schemes, clear the fragment,
lowercase the host, default the path to `/`, and build the canonical
string. -/
def normalizeParsed (u0 : GoURL) : Option (GoURL × Str) :=
  let u1 := if u0.scheme = [] then { u0 with scheme := gostr "gemini" } else u0
  if u1.scheme ≠ gostr "gemini" then none
  else
    let u2 := { u1 with fragment := [],
                        host := toLowerStr u1.host,
                        path := if u1.path = [] then gostr "/" else u1.path }
    some (u2, canonicalString u2)

/-- Translation of `(*Crawler).normalizeURL` (crawler.go:413-435): trim,
parse, then `normalizeParsed`. -/
def normalizeURL (raw : Str) : Option (GoURL × Str) :=
  match parseURL (trimSpace raw) with
  | none => none
  | some u0 => normalizeParsed u0

/-- The host component of `pageID` (crawler.go:462-467): lowercased host
with the default port stripped. -/
def pageIDHost (u : GoURL) : Str := stripDefaultPort (toLowerStr u.host)

example : (normalizeURL (gostr "gemini://Example.org:1965/foo/bar#frag")).map (·.2)
    = some (gostr "gemini://example.org/foo/bar") := by decide
example : (normalizeURL (gostr "gemini://example.org")).map (·.2)
    = some (gostr "gemini://example.org/") := by decide
example : (normalizeURL (gostr "example.org/a")).map (·.2)
    = some (gostr "gemini://example.org/a") := by decide
example : normalizeURL (gostr "example.org:1965/a") = none := by decide
example : (normalizeURL (gostr "gemini://[::1]/a")).map (·.2)
    = some (gostr "gemini://[::1]/a") := by decide
example : (normalizeURL (gostr "gemini://[::1]:1965/a")).map (·.2)
    = some (gostr "gemini://[::1]:1965/a") := by decide
example : (normalizeURL (gostr "gemini://h/a%23b")).map (·.2)
    = some (gostr "gemini://h/a#b") := by decide
example : (normalizeURL (gostr "gemini://h/a#b")).map (·.2)
    = some (gostr "gemini://h/a") := by decide
example : (normalizeURL (gostr "example.org")).map (·.2)
    = some (gostr "gemini://example.org") := by decide
example : (normalizeURL (gostr "gemini://example.org")).map (·.2)
    = some (gostr "gemini://example.org/") := by decide
example : (normalizeURL (gostr "gemini://h/p?x=1")).map (·.2)
    = some (gostr "gemini://h/p?x=1") := by decide

/-! ## Slug derivation (crawler.go:479-497) -/

/-- The character class `[a-zA-Z0-9._-]` of `slugRe` (crawler.go:479). -/
def allowedSlugChar (c : Char) : Bool :=
  c.isAlpha || c.isDigit || c == '.' || c == '_' || c == '-'

/-- Fueled worker for `collapseRuns`. -/
def collapseRunsF : Nat → Str → Str
  | 0, _ => []
  | _ + 1, [] => []
  | fuel + 1, c :: rest =>
    if allowedSlugChar c then c :: collapseRunsF fuel rest
    else '-' :: collapseRunsF fuel (rest.dropWhile (fun d => !allowedSlugChar d))

/-- Model of `slugRe.ReplaceAllString(s, "-")`: every maximal run of
characters outside `[a-zA-Z0-9._-]` becomes a single `-`. -/
def collapseRuns (s : Str) : Str := collapseRunsF s.length s

/-- Model of `strings.TrimSuffix(p, "/")`: drop one trailing slash. -/
def trimOneSlashSuffix (p : Str) : Str :=
  if p.getLast? = some '/' then p.dropLast else p

/-- Model of `strings.Split` at a single character (always non-empty). -/
def splitOnChar (sep : Char) : Str → List Str
  | [] => [[]]
  | c :: rest =>
    if c = sep then [] :: splitOnChar sep rest
    else
      match splitOnChar sep rest with
      | [] => [[c]]
      | h :: t => (c :: h) :: t

/-- Translation of `slugFromPath` (crawler.go:481-497). -/
def slugFromPath (p : Str) : Str :=
  if p = [] ∨ p = gostr "/" then gostr "root"
  else
    let parts := splitOnChar '/' (trimOneSlashSuffix p)
    let last0 := parts.getLast?.getD []
    let last1 := collapseRuns last0
    let last2 := last1.take 80
    if last2 = [] ∨ last2 = gostr "-" then gostr "page" else last2

example : slugFromPath (gostr "/") = gostr "root" := by decide
example : slugFromPath (gostr "/foo/bar") = gostr "bar" := by decide
example : slugFromPath (gostr "/foo/bar/") = gostr "bar" := by decide
example : slugFromPath (gostr "/a b!c") = gostr "a-b-c" := by decide
example : slugFromPath (gostr "/a//") = gostr "page" := by decide
example : slugFromPath (gostr "/!!") = gostr "page" := by decide

/-! ## Worker routing (crawler.go:276-296) -/

/-- Scheduler routing state: per-worker affinity sets (as lists of hosts)
and the sampled pending-channel lengths, in worker-index order. -/
structure SchedState where
  workersHostsList : List (List Str)
  queueLens : List Nat
deriving DecidableEq, Repr

/-- The loop of `findWorkerToDoTheJob`: walks workers in index order
carrying `(minJobs, minJobsWorkerNum)` — initialised to `(0, 0)` by Go's
zero values — updating them when `queueLen <= minJobs`, and returning
immediately (flag `true`) when a worker's affinity set contains the host. -/
def findWorkerAux (host : Str) : List (List Str × Nat) → Nat → Nat → Nat → Nat × Bool
  | [], _, _, minNum => (minNum, false)
  | (hosts, len) :: rest, i, minJobs, minNum =>
    let p := if len ≤ minJobs then (len, i) else (minJobs, minNum)
    if hosts.contains host then (i, true)
    else findWorkerAux host rest (i + 1) p.1 p.2

/-- Translation of `findWorkerToDoTheJob` (crawler.go:276-296): returns the
chosen worker index and the updated state (the host is added to the chosen
worker's affinity set when no worker served it yet). -/
def findWorkerToDoTheJob (st : SchedState) (host : Str) : Nat × SchedState :=
  let pairs := st.workersHostsList.zip st.queueLens
  let r := findWorkerAux host pairs 0 0 0
  if r.2 then (r.1, st)
  else
    (r.1, { st with workersHostsList :=
      st.workersHostsList.set r.1 (host :: st.workersHostsList.getD r.1 []) })

example : (findWorkerToDoTheJob ⟨[[], []], [2, 1]⟩ (gostr "h")).1 = 0 := by decide
example : (findWorkerToDoTheJob ⟨[[], []], [0, 0]⟩ (gostr "h")).1 = 1 := by decide
example : (findWorkerToDoTheJob ⟨[[gostr "h"], []], [9, 0]⟩ (gostr "h")).1 = 0 := by decide

/-! ## Page metadata and the recrawl decision (crawler.go:96-103, 526-558) -/

/-- Model of `pageMeta` (crawler.go:96-103); `lastCrawled` is the instant as
an integer (nanoseconds), `sizeBytes` a natural number. -/
structure PageMeta where
  url : Str
  lastCrawled : Int
  status : Str
  mime : Str
  sizeBytes : Nat
  version : Nat
deriving DecidableEq, Repr

/-- Outcome of `os.ReadFile` + `json.Unmarshal` on the metadata path:
the file does not exist, reading fails otherwise, or the file's bytes
parse to `some` metadata record (`none` = malformed JSON). -/
inductive MetaReadResult where
  | notExist
  | readFailure
  | fileContent (parsed : Option PageMeta)
deriving DecidableEq, Repr

/-- Translation of `(*Crawler).shouldFetch` (crawler.go:526-558) with the
filesystem read and JSON decoding abstracted into `MetaReadResult`, and
`time.Since(meta.LastCrawled)` modelled as `now - meta.lastCrawled`.
Returns the decision and the updated seen set, or an error for a
non-not-exist read failure. -/
def shouldFetch (seen : List Str) (canonical : Str) (read : MetaReadResult)
    (now window : Int) : Except Unit (Bool × List Str) :=
  if seen.contains canonical then .ok (false, seen)
  else
    let seen2 := canonical :: seen
    match read with
    | .notExist => .ok (true, seen2)
    | .readFailure => .error ()
    | .fileContent none => .ok (true, seen2)
    | .fileContent (some meta) =>
      if ¬ GeminiMediaType.isPrefixOf (toLowerStr meta.mime) then .ok (false, seen2)
      else if now - meta.lastCrawled < window then .ok (false, seen2)
      else .ok (true, seen2)

/-! ## The protocol client contract consumed by the crawler
(`internal/gemini/gemini.go`) -/

/-- Model of `gemini.Response`. -/
structure GemResponse where
  status : Int
  meta : Str
  body : List Char
deriving DecidableEq, Repr

/-- Model of `net.JoinHostPort`. -/
def joinHostPort (h p : Str) : Str :=
  if h.contains ':' then '[' :: h ++ (']' :: ':' :: p) else h ++ ':' :: p

/-- Model of net/url `splitHostPort` (used by `URL.Hostname`/`URL.Port`):
split off a valid numeric port after the last colon, then strip one pair
of square brackets. -/
def splitHostPort (hp : Str) : Str × Str :=
  let hpp :=
    match afterLastChar ':' hp with
    | some after =>
      if validOptionalPort (':' :: after) then (beforeLastChar ':' hp, after)
      else (hp, [])
    | none => (hp, [])
  let h := hpp.1
  let h2 :=
    if (gostr "[").isPrefixOf h ∧ h.getLast? = some ']' then h.drop 1 |>.dropLast
    else h
  (h2, hpp.2)

/-- Translation of `gemini.GetFullGeminiLink` (gemini.go:50-77): reject
http(s) links, prepend the scheme when missing, parse, and fill in the
default port 1965 when no explicit port is present. -/
def GetFullGeminiLink (linkRaw : Str) : Option GoURL :=
  if (gostr "http").isPrefixOf linkRaw then none
  else
    let raw := if (gostr "gemini://").isPrefixOf linkRaw then linkRaw
               else gostr "gemini://" ++ linkRaw
    match parseURL raw with
    | none => none
    | some link =>
      if (splitHostPort link.host).2 = [] then
        let hostname := (splitHostPort link.host).1
        if hostname = [] then some { link with host := link.host ++ ':' :: geminiPort }
        else some { link with host := joinHostPort hostname geminiPort }
      else some link

example : (GetFullGeminiLink (gostr "gemini://example.com")).map (·.host)
    = some (gostr "example.com:1965") := by decide
example : (GetFullGeminiLink (gostr "example.com/path")).map (·.host)
    = some (gostr "example.com:1965") := by decide
example : (GetFullGeminiLink (gostr "gemini://example.com:1234/abc")).map (·.host)
    = some (gostr "example.com:1234") := by decide
example : (GetFullGeminiLink (gostr "gemini://[::1]/")).map (·.host)
    = some (gostr "[::1]:1965") := by decide
example : GetFullGeminiLink (gostr "http://example.com") = none := by decide
example : GetFullGeminiLink (gostr "gemini://h/a%") = none := by decide

/-! ## The fetch step of the worker (crawler.go:298-363, 618-643) -/

/-- Decimal rendering of a Go `int` (for the `status-%d` tag). -/
def intToStr (i : Int) : Str :=
  if i < 0 then '-' :: Nat.toDigits 10 i.natAbs else Nat.toDigits 10 i.toNat

/-- Result of `doRequest` as consumed by `worker`: success, or an error
with the status tag and length that `writeErrorMeta` will record. -/
inductive DoReqOutcome where
  | success
  | failure (tag : Str) (size : Nat)
deriving DecidableEq, Repr

/-- Translation of `(*Crawler).doRequest` (crawler.go:326-363) with the
network call abstracted: `req = none` models a transport error from
`gemini.DoRequest`, `saveOk` models whether `savePage`'s filesystem writes
succeed.  `GetFullGeminiLink` is evaluated on the job's canonical URL as in
the source. -/
def doRequest (canonical : Str) (maxKB : Int) (req : Option GemResponse)
    (saveOk : Bool) : DoReqOutcome :=
  match GetFullGeminiLink canonical with
  | none => .failure (gostr "job.canonical-error") 0
  | some _ =>
    match req with
    | none => .failure (gostr "request-error") 0
    | some resp =>
      let len := resp.body.length
      if resp.status ≠ 2 then .failure (gostr "status-" ++ intToStr resp.status) len
      else
        let textual := containsSub (gostr ".gmi") canonical ||
                       containsSub (gostr ".txt") canonical
        if ¬ textual ∧ 0 < maxKB ∧ (len : Int) > maxKB * 1024 then
          .failure (gostr "too-large") len
        else if ¬ saveOk then .failure (gostr "save-error") len
        else .success

/-- Translation of `(*Crawler).writeErrorMeta`'s record (crawler.go:618-643):
the metadata written for a failed job. -/
def writeErrorMeta (canonical : Str) (now : Int) (tag : Str) (size : Nat) : PageMeta :=
  { url := canonical, lastCrawled := now, status := tag, mime := [],
    sizeBytes := size, version := 1 }

/-- The error-meta record the worker loop (crawler.go:316-320) persists for
a job, if any: `doRequest`'s failure tag and size passed to
`writeErrorMeta`. -/
def workerErrorMeta (canonical : Str) (now : Int) (maxKB : Int)
    (req : Option GemResponse) (saveOk : Bool) : Option PageMeta :=
  match doRequest canonical maxKB req saveOk with
  | .success => none
  | .failure tag size => some (writeErrorMeta canonical now tag size)

/-! ## Throttle critical section (crawler.go:561-576) -/

/-- The atomic actions of `(*Crawler).throttle` in program order. -/
inductive ThrottleOp where
  | lockOp
  | readOp
  | sleepOp
  | writeOp
  | unlockOp
deriving DecidableEq, Repr

/-- Translation of `(*Crawler).throttle` (crawler.go:561-576) as its
sequence of atomic actions: `lastReqMu.Lock()` at entry with a deferred
`Unlock()` at return, the map read, a sleep when the host was requested
less than the throttle interval ago, and the map write.  There is no
unlock/relock around the sleep in the source. -/
def throttleOps (hasRecent needWait : Bool) : List ThrottleOp :=
  [.lockOp, .readOp] ++ (if hasRecent ∧ needWait then [.sleepOp] else []) ++
    [.writeOp, .unlockOp]

/-- Whether the mutex is held while the action at index `i` executes:
more lock than unlock actions up to and including `i`. -/
def mutexHeldAt (ops : List ThrottleOp) (i : Nat) : Bool :=
  (ops.take (i + 1)).count .lockOp > (ops.take (i + 1)).count .unlockOp

/-! ## Queue append and link discovery (crawler.go:365-391, 702-719) -/

/-- Translation of `(*Crawler).appendToQueueDedup` (crawler.go:702-719):
under the file-queue mutex, open the queue file for append — returning
silently when that fails — then re-canonicalize each URL, skipping
failures, and append one line per canonical; per-line write errors are
discarded (`_, _ = f.WriteString`), modelled by `writeOk`.  The function
has no error result: its only effect is the resulting file content. -/
def appendToQueueDedup (openOk : Bool) (writeOk : Str → Bool)
    (file : List Str) (urls : List Str) : List Str :=
  if ¬ openOk then file
  else
    urls.foldl (fun acc u =>
      match normalizeURL u with
      | none => acc
      | some (_, canonical) => if writeOk canonical then acc ++ [canonical] else acc)
      file

/-- Translation of the discovery part of `(*Crawler).processBody`
(crawler.go:365-391) with the links already extracted: for a gemtext
response, the links not in the seen set are pushed one by one onto the
in-memory intake channel, and afterwards the same list is handed to
`appendToQueueDedup`.  Returns (intake-channel pushes, new file queue). -/
def processBodyDiscovery (respMeta : Str) (links : List Str) (seen : List Str)
    (openOk : Bool) (writeOk : Str → Bool) (file : List Str) :
    List Str × List Str :=
  if GeminiMediaType.isPrefixOf (toLowerStr respMeta) then
    let toAdd := links.filter (fun l => ¬ seen.contains l)
    let file2 := if toAdd ≠ [] then appendToQueueDedup openOk writeOk file toAdd
                 else file
    (toAdd, file2)
  else ([], file)

/-! ## Recrawl policy (C3) -/

/-- C3: `shouldFetch` returns false when the canonical URL is already in
the seen set and otherwise adds it; then returns true when no metadata
file exists, true when the metadata is malformed JSON, false when the
stored mime does not start with the gemtext media type (Go compares
case-insensitively, `strings.HasPrefix(strings.ToLower(meta.MIME), ...)`),
false when `now - last_crawled < RecrawlWindow`, and true otherwise. -/
theorem shouldFetch_recrawl_policy (seen : List Str) (canonical : Str)
    (read : MetaReadResult) (now window : Int) :
    (canonical ∈ seen →
      shouldFetch seen canonical read now window = .ok (false, seen)) ∧
    (canonical ∉ seen → read = .notExist →
      shouldFetch seen canonical read now window = .ok (true, canonical :: seen)) ∧
    (canonical ∉ seen → read = .fileContent none →
      shouldFetch seen canonical read now window = .ok (true, canonical :: seen)) ∧
    (∀ meta, canonical ∉ seen → read = .fileContent (some meta) →
      GeminiMediaType.isPrefixOf (toLowerStr meta.mime) = false →
      shouldFetch seen canonical read now window = .ok (false, canonical :: seen)) ∧
    (∀ meta, canonical ∉ seen → read = .fileContent (some meta) →
      GeminiMediaType.isPrefixOf (toLowerStr meta.mime) = true →
      ((now - meta.lastCrawled < window →
        shouldFetch seen canonical read now window = .ok (false, canonical :: seen)) ∧
       (¬ now - meta.lastCrawled < window →
        shouldFetch seen canonical read now window = .ok (true, canonical :: seen)))) := by
  refine ⟨?_, ?_, ?_, ?_, ?_⟩
  · intro h; simp [shouldFetch, h]
  · intro h hr; subst hr; simp [shouldFetch, h]
  · intro h hr; subst hr; simp [shouldFetch, h]
  · intro meta h hr hm; subst hr; simp [shouldFetch, h, hm]
  · intro meta h hr hm
    subst hr
    constructor
    · intro hlt; simp [shouldFetch, h, hm, hlt]
    · intro hge; simp [shouldFetch, h, hm, hge]

/-- Concrete instances of `shouldFetch_recrawl_policy`: a seen URL is
skipped; a missing metadata file, and a malformed one, permit the fetch; a
non-gemtext mime pins the page; a fresh crawl is skipped and a stale one
refreshed. -/
theorem shouldFetch_recrawl_policy_witness :
    shouldFetch [gostr "gemini://e.org/a"] (gostr "gemini://e.org/a") .notExist 0 9
      = .ok (false, [gostr "gemini://e.org/a"]) ∧
    shouldFetch [] (gostr "gemini://e.org/a") .notExist 0 9
      = .ok (true, [gostr "gemini://e.org/a"]) ∧
    shouldFetch [] (gostr "gemini://e.org/a") (.fileContent none) 0 9
      = .ok (true, [gostr "gemini://e.org/a"]) ∧
    shouldFetch [] (gostr "gemini://e.org/a")
      (.fileContent (some ⟨gostr "gemini://e.org/a", 0, gostr "success", gostr "image/png", 3, 1⟩)) 100 9
      = .ok (false, [gostr "gemini://e.org/a"]) ∧
    shouldFetch [] (gostr "gemini://e.org/a")
      (.fileContent (some ⟨gostr "gemini://e.org/a", 0, gostr "success", gostr "text/gemini", 3, 1⟩)) 5 9
      = .ok (false, [gostr "gemini://e.org/a"]) ∧
    shouldFetch [] (gostr "gemini://e.org/a")
      (.fileContent (some ⟨gostr "gemini://e.org/a", 0, gostr "success", gostr "text/gemini", 3, 1⟩)) 100 9
      = .ok (true, [gostr "gemini://e.org/a"]) := by
  refine ⟨?_, ?_, ?_, ?_, ?_, ?_⟩
  · exact (shouldFetch_recrawl_policy _ _ _ _ _).1 (by decide)
  · exact (shouldFetch_recrawl_policy _ _ _ _ _).2.1 (by decide) rfl
  · exact (shouldFetch_recrawl_policy _ _ _ _ _).2.2.1 (by decide) rfl
  · exact (shouldFetch_recrawl_policy _ _ _ _ _).2.2.2.1 _ (by decide) rfl (by decide)
  · exact ((shouldFetch_recrawl_policy _ _ _ _ _).2.2.2.2 _ (by decide) rfl (by decide)).1 (by norm_num)
  · exact ((shouldFetch_recrawl_policy _ _ _ _ _).2.2.2.2 _ (by decide) rfl (by decide)).2 (by norm_num)

/-! ## Throttle holds the mutex across the sleep (C4) -/

/-- C4: the claim that `throttle` never holds the last-request map mutex
while sleeping fails on the code: in the throttled case the action
sequence is lock, read, sleep, write, unlock — the sleep at index 2 runs
with the mutex held (the only unlock is the deferred one at return), so a
concurrent `throttle` for a different host is delayed. -/
theorem throttle_sleeps_holding_mutex :
    throttleOps true true = [.lockOp, .readOp, .sleepOp, .writeOp, .unlockOp] ∧
    (throttleOps true true).get? 2 = some .sleepOp ∧
    mutexHeldAt (throttleOps true true) 2 = true ∧
    ((throttleOps true true).take 3).count ThrottleOp.unlockOp = 0 := by
  decide

/-! ## Worker choice ignores the true minimum (C5) -/

/-- C5: the claim that the fallback picks the worker with the smallest
pending-queue length, ties to the smallest index, fails on the code:
`minJobs` starts at Go's zero value `0` and is only updated when
`queueLen <= minJobs`, so with queue lengths `[2, 1]` the code returns
worker 0 (not the true minimum, worker 1), and with lengths `[0, 0]` the
tie goes to the *largest* index, worker 1.  The affinity scan itself
behaves as claimed (third conjunct). -/
theorem findWorker_ignores_minimum :
    (findWorkerToDoTheJob ⟨[[], []], [2, 1]⟩ (gostr "h")).1 = 0 ∧
    (findWorkerToDoTheJob ⟨[[], []], [0, 0]⟩ (gostr "h")).1 = 1 ∧
    (findWorkerToDoTheJob ⟨[[], [gostr "h"]], [0, 7]⟩ (gostr "h")).1 = 1 ∧
    (findWorkerToDoTheJob ⟨[[], []], [2, 1]⟩ (gostr "h")).2.workersHostsList
      = [[gostr "h"], []] := by
  decide

/-! ## Size gate for non-textual responses (C7) -/

/-- C7: for a job whose canonical URL contains neither `.gmi` nor `.txt`,
a status-2 body of exactly `MaxResponseKB*1024` bytes passes the gate and
is saved, while any body of `MaxResponseKB*1024 + 1` bytes or more yields
the error outcome `too-large` carrying the body length, recorded in the
error metadata as `status = "too-large"`, `size_bytes = length`
(`MaxResponseKB > 0`, as enforced by the constructor's defaulting). -/
theorem doRequest_size_gate (canonical : Str) (maxKB : Int) (resp : GemResponse)
    (saveOk : Bool)
    (hgmi : containsSub (gostr ".gmi") canonical = false)
    (htxt : containsSub (gostr ".txt") canonical = false)
    (hfull : (GetFullGeminiLink canonical).isSome = true)
    (hmax : 0 < maxKB)
    (hstatus : resp.status = 2) :
    ((resp.body.length : Int) = maxKB * 1024 → saveOk = true →
      doRequest canonical maxKB (some resp) saveOk = .success) ∧
    (∀ now : Int, (resp.body.length : Int) ≥ maxKB * 1024 + 1 →
      doRequest canonical maxKB (some resp) saveOk
        = .failure (gostr "too-large") resp.body.length ∧
      workerErrorMeta canonical now maxKB (some resp) saveOk
        = some { url := canonical, lastCrawled := now, status := gostr "too-large",
                 mime := [], sizeBytes := resp.body.length, version := 1 }) := by
  obtain ⟨link, hlink⟩ := Option.isSome_iff_exists.mp hfull
  constructor
  · intro hlen hsave
    simp only [doRequest, hlink, hstatus, hgmi, htxt, hsave]
    norm_num [hlen]
  · intro now hlen
    have hgt : (resp.body.length : Int) > maxKB * 1024 := by omega
    constructor
    · simp only [doRequest, hlink, hstatus, hgmi, htxt]
      norm_num [hgt, hmax]
    · simp only [workerErrorMeta, doRequest, hlink, hstatus, hgmi, htxt]
      norm_num [hgt, hmax, writeErrorMeta]

/-- Concrete instance of `doRequest_size_gate` with `MaxResponseKB = 1`:
a 1024-byte body is saved, a 1025-byte body is rejected as too large. -/
theorem doRequest_size_gate_witness :
    doRequest (gostr "gemini://example.org/archive.tar") 1
      (some ⟨2, gostr "application/x-tar", List.replicate 1024 'a'⟩) true = .success ∧
    doRequest (gostr "gemini://example.org/archive.tar") 1
      (some ⟨2, gostr "application/x-tar", List.replicate 1025 'a'⟩) true
      = .failure (gostr "too-large") 1025 := by
  constructor
  · exact (doRequest_size_gate _ _ _ _ (by decide) (by decide) (by decide) (by decide)
      rfl).1 (by simp) rfl
  · have h := ((doRequest_size_gate (gostr "gemini://example.org/archive.tar") 1
      ⟨2, gostr "application/x-tar", List.replicate 1025 'a'⟩ true (by decide) (by decide)
      (by decide) (by decide) rfl).2 0 (by simp)).1
    simpa using h

/-! ## The canon-error status tag (C8) -/

/-- C8: the claim that a job whose canonical URL cannot be fully qualified
gets status tag exactly `"canon-error"` fails on the code: `doRequest`
returns the tag `"job.canonical-error"` (crawler.go:330, a literal that
embeds the Go expression `job.canonical`), which the worker then writes
into the metadata record.  Shown on the canonical `gemini://h/a%`, which
`gemini.GetFullGeminiLink` rejects (trailing `%` is an invalid escape). -/
theorem doRequest_canon_error_tag :
    GetFullGeminiLink (gostr "gemini://h/a%") = none ∧
    doRequest (gostr "gemini://h/a%") 512 none true
      = .failure (gostr "job.canonical-error") 0 ∧
    workerErrorMeta (gostr "gemini://h/a%") 0 512 none true
      = some ⟨gostr "gemini://h/a%", 0, gostr "job.canonical-error", [], 0, 1⟩ ∧
    gostr "job.canonical-error" ≠ gostr "canon-error" := by
  decide

/-! ## Queue append swallows failures (C10) -/

/-- C10: `appendToQueueDedup` reports no failure: when opening the queue
file fails the file is left unchanged (the whole batch is dropped), and
`processBodyDiscovery` still pushes exactly the unseen links onto the
in-memory intake channel — so those URLs exist only in memory and a crash
loses them.  A per-line write error only drops that line: the batch with
the failing URL produces the same file as the batch without it. -/
theorem appendToQueueDedup_swallows_failures (writeOk : Str → Bool) (file : List Str) :
    (∀ urls, appendToQueueDedup false writeOk file urls = file) ∧
    (∀ respMeta links seen, GeminiMediaType.isPrefixOf (toLowerStr respMeta) = true →
      processBodyDiscovery respMeta links seen false writeOk file
        = (links.filter (fun l => ¬ seen.contains l), file)) ∧
    (∀ us1 u us2 c, (normalizeURL u).map Prod.snd = some c → writeOk c = false →
      appendToQueueDedup true writeOk file (us1 ++ u :: us2)
        = appendToQueueDedup true writeOk file (us1 ++ us2)) := by
  refine ⟨?_, ?_, ?_⟩
  · intro urls; simp [appendToQueueDedup]
  · intro respMeta links seen hm
    simp only [processBodyDiscovery, hm, if_true, appendToQueueDedup]
    split <;> simp
  · intro us1 u us2 c hnorm hw
    obtain ⟨p, hp, hpc⟩ := Option.map_eq_some'.mp hnorm
    have hstep : ∀ acc : List Str,
        (match normalizeURL u with
          | none => acc
          | some (v, canonical) =>
            if writeOk canonical then acc ++ [canonical] else acc) = acc := by
      intro acc
      rcases p with ⟨v, c'⟩
      cases hpc
      simp [hp, hw]
    have hopen : ∀ (fl : List Str) (urls : List Str),
        appendToQueueDedup true writeOk fl urls
          = urls.foldl (fun acc u' => match normalizeURL u' with
              | none => acc
              | some (v, canonical) =>
                if writeOk canonical then acc ++ [canonical] else acc) fl := by
      intro fl urls; simp [appendToQueueDedup]
    rw [hopen, hopen]
    induction us1 generalizing file with
    | nil => simp only [List.nil_append, List.foldl_cons, hstep]
    | cons a as ih => simp only [List.cons_append, List.foldl_cons, ih]

/-- Concrete instance of `appendToQueueDedup_swallows_failures`: a failed
open leaves the queue file as it was while the intake channel still gets
the link, and a per-line write error drops only that line. -/
theorem appendToQueueDedup_swallows_failures_witness :
    appendToQueueDedup false (fun _ => true) [gostr "old"]
      [gostr "gemini://a.example/b"] = [gostr "old"] ∧
    processBodyDiscovery (gostr "text/gemini") [gostr "gemini://a.example/b"] []
      false (fun _ => true) [gostr "old"]
      = ([gostr "gemini://a.example/b"], [gostr "old"]) ∧
    appendToQueueDedup true (fun c => c != gostr "gemini://a.example/b") [gostr "old"]
      [gostr "gemini://a.example/b", gostr "gemini://c.example/d"]
      = appendToQueueDedup true (fun c => c != gostr "gemini://a.example/b") [gostr "old"]
          [gostr "gemini://c.example/d"] := by
  refine ⟨?_, ?_, ?_⟩
  · exact (appendToQueueDedup_swallows_failures _ _).1 _
  · exact (appendToQueueDedup_swallows_failures _ _).2.1 _ _ _ (by decide)
  · exact (appendToQueueDedup_swallows_failures _ _).2.2 [] _ [gostr "gemini://c.example/d"]
      (gostr "gemini://a.example/b") (by decide) (by decide)

/-! ## Character-class and list lemmas shared by several claims -/

/-- `Char.ofNat` round-trips on valid low code points. -/
lemma char_toNat_ofNat_of_lt {m : Nat} (h : m < 55296) : (Char.ofNat m).toNat = m := by
  rw [Char.ofNat, dif_pos (Or.inl h)]
  rfl

/-- For a character `d` that is neither an ASCII uppercase nor lowercase
letter, `toLower c = d` holds exactly for `c = d` (ASCII case mapping
neither moves nor produces such characters). -/
lemma toLower_reflects_special {d : Char} (hd : d.toNat < 65 ∨ 90 < d.toNat)
    (hd2 : d.toNat < 97 ∨ 122 < d.toNat) :
    ∀ c : Char, c.toLower = d ↔ c = d := by
  intro c
  constructor
  · intro h
    rw [Char.toLower] at h
    split at h
    · exfalso
      have hv : (Char.ofNat (c.toNat + 32)).toNat = c.toNat + 32 :=
        char_toNat_ofNat_of_lt (by omega)
      rw [h] at hv
      omega
    · exact h
  · intro h
    subst h
    rw [Char.toLower, if_neg]
    omega

/-- `toLower` never yields an ASCII uppercase letter. -/
lemma toLower_not_upper (c : Char) : ¬(65 ≤ c.toLower.toNat ∧ c.toLower.toNat ≤ 90) := by
  rw [Char.toLower]
  split <;> rename_i hcase
  · have hv : (Char.ofNat (c.toNat + 32)).toNat = c.toNat + 32 :=
      char_toNat_ofNat_of_lt (by omega)
    rw [hv]
    omega
  · omega

/-- `toLower` is pointwise idempotent. -/
lemma toLower_toLower (c : Char) : c.toLower.toLower = c.toLower := by
  have h := toLower_not_upper c
  generalize c.toLower = d at h ⊢
  rw [Char.toLower, if_neg (by omega : ¬(d.toNat ≥ 65 ∧ d.toNat ≤ 90))]

/-- Membership in the parts of a `cutChar` split. -/
lemma cutChar_eq_some {sep : Char} {s a b : Str} (h : cutChar sep s = some (a, b)) :
    s = a ++ sep :: b ∧ sep ∉ a := by
  induction s generalizing a with
  | nil => simp [cutChar] at h
  | cons c rest ih =>
    by_cases hc : c = sep
    · subst hc
      simp [cutChar] at h
      obtain ⟨ha, hb⟩ := h
      subst ha; subst hb
      simp
    · simp only [cutChar, if_neg hc] at h
      cases hcut : cutChar sep rest with
      | none => rw [hcut] at h; simp at h
      | some p =>
        rw [hcut] at h
        simp only [Option.map_some'] at h
        cases h
        obtain ⟨h1, h2⟩ := ih hcut
        constructor
        · simp [h1]
        · simp only [List.mem_cons]
          rintro (h | h)
          · exact hc h.symm
          · exact h2 h

/-- `cutChar` finds nothing when the separator is absent. -/
lemma cutChar_eq_none {sep : Char} {s : Str} (h : sep ∉ s) : cutChar sep s = none := by
  induction s with
  | nil => rfl
  | cons c rest ih =>
    simp only [List.mem_cons, not_or] at h
    have hne : ¬ c = sep := fun hcs => h.1 hcs.symm
    simp [cutChar, hne, ih h.2]

/-- `cutChar` cuts at the first occurrence of the separator. -/
lemma cutChar_append {sep : Char} {a b : Str} (h : sep ∉ a) :
    cutChar sep (a ++ sep :: b) = some (a, b) := by
  induction a with
  | nil => simp [cutChar]
  | cons c rest ih =>
    simp only [List.mem_cons, not_or] at h
    have hne : ¬ c = sep := fun hcs => h.1 hcs.symm
    simp [cutChar, hne, ih h.2]

/-! ## Slug characterization (C6) -/

/-- A failing element appended at the end does not change `takeWhile`. -/
lemma takeWhile_append_single_neg {p : Char → Bool} {x : Char} (hx : p x = false)
    (a : Str) : (a ++ [x]).takeWhile p = a.takeWhile p := by
  induction a with
  | nil => simp [List.takeWhile, hx]
  | cons y a ih =>
    by_cases hy : p y
    · simp [List.takeWhile, hy, ih]
    · simp [List.takeWhile, Bool.of_not_eq_true hy]

/-- `takeWhile` keeps a list all of whose elements pass. -/
lemma takeWhile_of_all {p : Char → Bool} {l : Str} (h : ∀ y ∈ l, p y = true) :
    l.takeWhile p = l := by
  induction l with
  | nil => rfl
  | cons y l ih =>
    have hy := h y (by simp)
    simp [List.takeWhile, hy, ih (fun z hz => h z (by simp [hz]))]

/-- `takeWhile` never passes an element of the first chunk that fails. -/
lemma takeWhile_append_stop {p : Char → Bool} {a : Str} (b : Str)
    (h : ∃ x ∈ a, p x = false) : (a ++ b).takeWhile p = a.takeWhile p := by
  induction a with
  | nil => simp at h
  | cons y a ih =>
    by_cases hy : p y
    · obtain ⟨x, hx, hpx⟩ := h
      rcases List.mem_cons.mp hx with hxy | hxa
      · subst hxy; rw [hy] at hpx; cases hpx
      · simp [List.takeWhile, hy, ih ⟨x, hxa, hpx⟩]
    · simp [List.takeWhile, Bool.of_not_eq_true hy]

/-- `splitOnChar` always yields at least one part. -/
lemma splitOnChar_ne_nil (sep : Char) (s : Str) : splitOnChar sep s ≠ [] := by
  cases s with
  | nil => simp [splitOnChar]
  | cons c rest =>
    by_cases hc : c = sep
    · simp [splitOnChar, hc]
    · simp only [splitOnChar, if_neg hc]
      cases h : splitOnChar sep rest <;> simp

/-- Without a separator, `splitOnChar` yields the whole string. -/
lemma splitOnChar_of_not_mem {sep : Char} {s : Str} (h : sep ∉ s) :
    splitOnChar sep s = [s] := by
  induction s with
  | nil => rfl
  | cons c rest ih =>
    simp only [List.mem_cons, not_or] at h
    have hne : ¬ c = sep := fun hc => h.1 hc.symm
    simp [splitOnChar, hne, ih h.2]

/-- With a separator present, `splitOnChar` yields at least two parts. -/
lemma splitOnChar_of_mem {sep : Char} {s : Str} (h : sep ∈ s) :
    ∃ h1 t, splitOnChar sep s = h1 :: t ∧ t ≠ [] := by
  induction s with
  | nil => simp at h
  | cons c rest ih =>
    by_cases hc : c = sep
    · subst hc
      exact ⟨[], splitOnChar c rest, by simp [splitOnChar], splitOnChar_ne_nil c rest⟩
    · have hrest : sep ∈ rest := by
        rcases List.mem_cons.mp h with h1 | h1
        · exact absurd h1.symm hc
        · exact h1
      obtain ⟨h1, t, heq, ht⟩ := ih hrest
      exact ⟨c :: h1, t, by simp [splitOnChar, hc, heq], ht⟩

/-- The last part of `splitOnChar` is the reversed longest separator-free
suffix. -/
lemma getLast_splitOnChar (sep : Char) (s : Str) :
    (splitOnChar sep s).getLast?.getD []
      = (s.reverse.takeWhile (fun c => c != sep)).reverse := by
  induction s with
  | nil => simp [splitOnChar]
  | cons c rest ih =>
    by_cases hc : c = sep
    · subst hc
      cases hsp : splitOnChar c rest with
      | nil => exact absurd hsp (splitOnChar_ne_nil c rest)
      | cons h1 t =>
        rw [hsp] at ih
        simp only [List.reverse_cons]
        rw [takeWhile_append_single_neg (p := fun d => d != c) (x := c) (by simp)]
        simpa [splitOnChar, hsp] using ih
    · simp only [splitOnChar, if_neg hc, List.reverse_cons]
      by_cases hmem : sep ∈ rest
      · obtain ⟨h1, t, heq, ht⟩ := splitOnChar_of_mem hmem
        rw [heq] at ih
        rw [takeWhile_append_stop (p := fun d => d != sep) [c]
          ⟨sep, by simpa using hmem, by simp⟩]
        cases t with
        | nil => exact absurd rfl ht
        | cons t0 ts =>
          rw [heq]
          simpa using ih
      · rw [splitOnChar_of_not_mem hmem]
        have hall : ∀ y ∈ rest.reverse ++ [c], (fun d => d != sep) y = true := by
          intro y hy
          simp only [bne_iff_ne, ne_eq]
          rcases List.mem_append.mp hy with hy | hy
          · exact fun hec => hmem (hec ▸ List.mem_reverse.mp hy)
          · have hyc : y = c := by simpa using hy
            subst hyc
            exact hc
        rw [takeWhile_of_all hall]
        simp

/-- The run-collapsing replacement, stated as the claim describes it: an
allowed character stays; a disallowed character becomes `-` when it ends a
maximal disallowed run, and is absorbed when another disallowed character
follows. -/
def collapseSpec : Str → Str
  | [] => []
  | c :: rest =>
    if allowedSlugChar c then c :: collapseSpec rest
    else
      match rest with
      | [] => ['-']
      | d :: _ => if allowedSlugChar d then '-' :: collapseSpec rest else collapseSpec rest

/-- `collapseSpec` absorbs a whole disallowed run into one `-`. -/
lemma collapseSpec_run : ∀ (rest : Str) (c : Char), allowedSlugChar c = false →
    collapseSpec (c :: rest)
      = '-' :: collapseSpec (rest.dropWhile (fun d => !allowedSlugChar d)) := by
  intro rest
  induction rest with
  | nil => intro c hc; simp [collapseSpec, hc]
  | cons d rest2 ih =>
    intro c hc
    by_cases hd : allowedSlugChar d
    · simp [collapseSpec, hc, hd, List.dropWhile]
    · have hd2 : allowedSlugChar d = false := Bool.of_not_eq_true hd
      have hstep : collapseSpec (c :: d :: rest2) = collapseSpec (d :: rest2) := by
        simp [collapseSpec, hc, hd2]
      rw [hstep, ih d hd2, List.dropWhile_cons]
      simp [hd2]

/-- The fueled code-side collapse agrees with `collapseSpec` once the fuel
covers the string. -/
lemma collapseRunsF_eq_spec : ∀ (fuel : Nat) (s : Str), s.length ≤ fuel →
    collapseRunsF fuel s = collapseSpec s := by
  intro fuel
  induction fuel with
  | zero =>
    intro s hs
    rw [Nat.le_zero, List.length_eq_zero] at hs
    subst hs
    rfl
  | succ fuel ih =>
    intro s hs
    cases s with
    | nil => rfl
    | cons c rest =>
      by_cases hc : allowedSlugChar c
      · simp only [collapseRunsF, hc, if_true, collapseSpec]
        rw [ih rest (by simpa using hs)]
      · have hc2 : allowedSlugChar c = false := Bool.of_not_eq_true hc
        simp only [collapseRunsF, hc2, Bool.false_eq_true, if_false]
        rw [collapseSpec_run rest c hc2]
        rw [ih _ (le_trans (List.dropWhile_sublist _).length_le (by simpa using hs))]

/-- The code's regexp replacement equals the spec-side collapse. -/
lemma collapseRuns_eq_spec (s : Str) : collapseRuns s = collapseSpec s :=
  collapseRunsF_eq_spec s.length s le_rfl

/-- The slug as the amended claim describes it: an empty or `/` path maps
to `root`; otherwise one trailing slash is removed, the segment after the
last remaining `/` is taken (the whole remainder when no `/` is left),
runs of characters outside `[A-Za-z0-9._-]` collapse to a single `-`, the
result is truncated to 80 characters, and `""`/`"-"` map to `page`. -/
def slugSpec (p : Str) : Str :=
  if p = [] ∨ p = gostr "/" then gostr "root"
  else
    let q := trimOneSlashSuffix p
    let seg := (afterLastChar '/' q).getD q
    let r := (collapseSpec seg).take 80
    if r = [] ∨ r = gostr "-" then gostr "page" else r

/-- C6 (amended): `slugFromPath` computes exactly the amended description
`slugSpec` on every path. -/
theorem slugFromPath_characterization (p : Str) : slugFromPath p = slugSpec p := by
  unfold slugFromPath slugSpec
  by_cases h0 : p = [] ∨ p = gostr "/"
  · simp [h0]
  · simp only [h0, if_false]
    have hseg : (splitOnChar '/' (trimOneSlashSuffix p)).getLast?.getD []
        = (afterLastChar '/' (trimOneSlashSuffix p)).getD (trimOneSlashSuffix p) := by
      rw [getLast_splitOnChar]
      unfold afterLastChar
      by_cases hmem : (trimOneSlashSuffix p).contains '/'
      · have hm : '/' ∈ trimOneSlashSuffix p := by simpa using hmem
        simp [hmem, hm]
      · have hnm : '/' ∉ trimOneSlashSuffix p := by
          simpa using hmem
        simp only [hmem, Bool.false_eq_true, if_false, Option.getD_none]
        rw [takeWhile_of_all (fun y hy => by
          simp only [bne_iff_ne, ne_eq]
          exact fun hce => hnm (hce ▸ List.mem_reverse.mp hy))]
        simp
    rw [hseg, collapseRuns_eq_spec]

/-- C6 (counterexample): on the path `/a//` the code returns `page`, not
the last non-empty segment `a` (the code removes a single trailing slash,
so the last segment is the empty one between the two slashes); a single
trailing slash behaves as the claim says. -/
theorem slugFromPath_double_slash :
    slugFromPath (gostr "/a//") = gostr "page" ∧
    gostr "page" ≠ gostr "a" ∧
    slugFromPath (gostr "/a/") = gostr "a" := by
  decide

/-! ## Canonical-string invariance (C2) -/

/-- `toLower` maps no character to `:` except `:` itself, so a colon-free
string stays colon-free. -/
lemma toLowerStr_colon_free {b : Str} (h : ':' ∉ b) : ':' ∉ toLowerStr b := by
  intro hmem
  obtain ⟨c, hc, hlc⟩ := List.mem_map.mp hmem
  rw [toLower_reflects_special (by decide) (by decide) c] at hlc
  exact h (hlc ▸ hc)

/-- Stripping the default port leaves a colon-free host unchanged. -/
lemma stripDefaultPort_of_colon_free {a : Str} (h : ':' ∉ a) :
    stripDefaultPort a = a := by
  unfold stripDefaultPort
  rw [if_neg]
  simpa using h

/-- Stripping the default port removes `:1965` from a colon-free base. -/
lemma stripDefaultPort_append_port {a : Str} (h : ':' ∉ a) :
    stripDefaultPort (a ++ gostr ":1965") = a := by
  unfold stripDefaultPort
  have hcut : cutChar ':' (a ++ ':' :: gostr "1965") = some (a, gostr "1965") :=
    cutChar_append h
  have hmemp : ':' ∈ a ++ gostr ":1965" := List.mem_append.mpr (Or.inr (by decide))
  have hcontains : (a ++ gostr ":1965").contains ':' = true := by simpa using hmemp
  simp only [hcontains, if_true]
  have : a ++ gostr ":1965" = a ++ ':' :: gostr "1965" := rfl
  rw [this, hcut]
  simp [geminiPort]

/-- Two parsed hosts that agree up to ASCII case and an optional default
port `:1965` attached to a base containing no other colon. -/
def HostsRelated (h1 h2 : Str) : Prop :=
  ∃ b1 b2 : Str, ':' ∉ b1 ∧ ':' ∉ b2 ∧ toLowerStr b1 = toLowerStr b2 ∧
    (h1 = b1 ∨ h1 = b1 ++ gostr ":1965") ∧
    (h2 = b2 ∨ h2 = b2 ++ gostr ":1965")

/-- Related hosts canonicalize identically. -/
lemma strip_toLower_of_related {h1 h2 : Str} (h : HostsRelated h1 h2) :
    stripDefaultPort (toLowerStr h1) = stripDefaultPort (toLowerStr h2) := by
  obtain ⟨b1, b2, hb1, hb2, hlow, hh1, hh2⟩ := h
  have hside : ∀ (b : Str) (hv : Str), ':' ∉ b → (hv = b ∨ hv = b ++ gostr ":1965") →
      stripDefaultPort (toLowerStr hv) = toLowerStr b := by
    intro b hv hb hcase
    have hfree := toLowerStr_colon_free hb
    rcases hcase with hcase | hcase
    · rw [hcase, stripDefaultPort_of_colon_free hfree]
    · rw [hcase]
      unfold toLowerStr
      rw [List.map_append]
      have hport : List.map Char.toLower (gostr ":1965") = gostr ":1965" := by decide
      rw [hport]
      exact stripDefaultPort_append_port hfree
  rw [hside b1 h1 hb1 hh1, hside b2 h2 hb2 hh2, hlow]

/-- `normalizeParsed` on a scheme-less parse: the scheme is defaulted and
the normalization succeeds. -/
lemma normalizeParsed_of_scheme_nil (u0 : GoURL) (h : u0.scheme = []) :
    normalizeParsed u0 = some
      ({ scheme := gostr "gemini", opq := u0.opq, host := toLowerStr u0.host,
         path := if u0.path = [] then gostr "/" else u0.path,
         rawQuery := u0.rawQuery, fragment := [] },
       canonicalString
        { scheme := gostr "gemini", opq := u0.opq, host := toLowerStr u0.host,
          path := if u0.path = [] then gostr "/" else u0.path,
          rawQuery := u0.rawQuery, fragment := [] }) := by
  simp [normalizeParsed, h]

/-- `normalizeParsed` on a gemini-scheme parse. -/
lemma normalizeParsed_of_scheme_gem (u0 : GoURL) (h : u0.scheme = gostr "gemini") :
    normalizeParsed u0 = some
      ({ scheme := gostr "gemini", opq := u0.opq, host := toLowerStr u0.host,
         path := if u0.path = [] then gostr "/" else u0.path,
         rawQuery := u0.rawQuery, fragment := [] },
       canonicalString
        { scheme := gostr "gemini", opq := u0.opq, host := toLowerStr u0.host,
          path := if u0.path = [] then gostr "/" else u0.path,
          rawQuery := u0.rawQuery, fragment := [] }) := by
  have hne : ¬ u0.scheme = [] := by rw [h]; decide
  simp only [normalizeParsed, if_neg hne, h, ite_not]
  simp [← h]

/-- `normalizeParsed` rejects any other scheme. -/
lemma normalizeParsed_of_scheme_other (u0 : GoURL) (h1 : ¬ u0.scheme = [])
    (h2 : ¬ u0.scheme = gostr "gemini") : normalizeParsed u0 = none := by
  simp [normalizeParsed, h1, h2]

/-- `normalizeParsed` succeeds exactly when the (defaulted) scheme is
gemini. -/
lemma normalizeParsed_isSome (u0 : GoURL) :
    (normalizeParsed u0).isSome
      ↔ (if u0.scheme = [] then gostr "gemini" else u0.scheme) = gostr "gemini" := by
  by_cases h : u0.scheme = []
  · rw [normalizeParsed_of_scheme_nil u0 h]
    simp [h]
  · by_cases hg : u0.scheme = gostr "gemini"
    · rw [normalizeParsed_of_scheme_gem u0 hg]
      simp [h, hg]
    · rw [normalizeParsed_of_scheme_other u0 h hg]
      simp [h, hg]

/-- The canonical string produced by `normalizeParsed`, in terms of the
parsed components. -/
lemma normalizeParsed_canonical (u0 : GoURL) (p : GoURL × Str)
    (hp : normalizeParsed u0 = some p) :
    p.2 = gostr "gemini://" ++ stripDefaultPort (toLowerStr u0.host) ++
      (if u0.path = [] then gostr "/" else u0.path) ++
      (if u0.rawQuery ≠ [] then '?' :: u0.rawQuery else []) := by
  have hpath2 : (if (if u0.path = [] then gostr "/" else u0.path) = [] then gostr "/"
        else (if u0.path = [] then gostr "/" else u0.path))
      = (if u0.path = [] then gostr "/" else u0.path) := by
    by_cases hp0 : u0.path = [] <;> simp [hp0, gostr]
  by_cases h : u0.scheme = []
  · rw [normalizeParsed_of_scheme_nil u0 h] at hp
    cases hp
    simp [canonicalString, hpath2]
  · by_cases hg : u0.scheme = gostr "gemini"
    · rw [normalizeParsed_of_scheme_gem u0 hg] at hp
      cases hp
      simp [canonicalString, hpath2]
    · rw [normalizeParsed_of_scheme_other u0 h hg] at hp
      cases hp

/-- C2 (amended): for every pair of raw URL strings that parse
successfully and whose parses differ only in host letter-case, in the
presence of the default port `:1965` on a host containing no other colon
(this excludes IPv6-literal hosts), or in the fragment, `normalizeURL`
succeeds on both or fails on both, and on success returns the same
canonical string for both. -/
theorem normalizeURL_canonical_invariant (x y : Str) (u v : GoURL)
    (hx : parseURL (trimSpace x) = some u) (hy : parseURL (trimSpace y) = some v)
    (hscheme : u.scheme = v.scheme) (hpath : u.path = v.path)
    (hquery : u.rawQuery = v.rawQuery) (hhost : HostsRelated u.host v.host) :
    ((normalizeURL x).isSome ↔ (normalizeURL y).isSome) ∧
    (∀ p q, normalizeURL x = some p → normalizeURL y = some q → p.2 = q.2) := by
  have hnx : normalizeURL x = normalizeParsed u := by
    unfold normalizeURL; rw [hx]
  have hny : normalizeURL y = normalizeParsed v := by
    unfold normalizeURL; rw [hy]
  constructor
  · rw [hnx, hny, normalizeParsed_isSome, normalizeParsed_isSome, hscheme]
  · intro p q hp hq
    rw [hnx] at hp
    rw [hny] at hq
    rw [normalizeParsed_canonical u p hp, normalizeParsed_canonical v q hq,
      hpath, hquery, strip_toLower_of_related hhost]

/-- C2 (counterexample): the claim fails as stated.  For an IPv6-literal
host the default port is not stripped (`strings.Cut` at the *first* colon
finds `:1]:1965`, not the port), so `gemini://[::1]/a` and
`gemini://[::1]:1965/a` — two raw strings differing only in
default-port presence — both succeed with different canonical strings.
Moreover for scheme-less raws, `example.org/a` succeeds while
`example.org:1965/a` fails (net/url reads `example.org:` as a scheme,
which the crawler rejects), so the fails-on-both-or-neither part also
fails. -/
theorem normalizeURL_not_invariant :
    (normalizeURL (gostr "gemini://[::1]/a")).map Prod.snd
      = some (gostr "gemini://[::1]/a") ∧
    (normalizeURL (gostr "gemini://[::1]:1965/a")).map Prod.snd
      = some (gostr "gemini://[::1]:1965/a") ∧
    gostr "gemini://[::1]/a" ≠ gostr "gemini://[::1]:1965/a" ∧
    (normalizeURL (gostr "example.org/a")).isSome = true ∧
    normalizeURL (gostr "example.org:1965/a") = none := by
  decide

/-- Concrete instance of `normalizeURL_canonical_invariant`: host case,
default port and fragment together do not change the canonical string. -/
theorem normalizeURL_canonical_invariant_witness :
    ∃ p q : GoURL × Str,
      normalizeURL (gostr "gemini://Example.org/a#f") = some p ∧
      normalizeURL (gostr "gemini://example.org:1965/a") = some q ∧
      p.2 = q.2 := by
  refine ⟨({ scheme := gostr "gemini", opq := [], host := gostr "example.org",
             path := gostr "/a", rawQuery := [], fragment := [] },
           gostr "gemini://example.org/a"),
          ({ scheme := gostr "gemini", opq := [], host := gostr "example.org:1965",
             path := gostr "/a", rawQuery := [], fragment := [] },
           gostr "gemini://example.org/a"),
          by decide, by decide, ?_⟩
  exact (normalizeURL_canonical_invariant (gostr "gemini://Example.org/a#f")
    (gostr "gemini://example.org:1965/a")
    { scheme := gostr "gemini", opq := [], host := gostr "Example.org",
      path := gostr "/a", rawQuery := [], fragment := gostr "f" }
    { scheme := gostr "gemini", opq := [], host := gostr "example.org:1965",
      path := gostr "/a", rawQuery := [], fragment := [] }
    (by decide) (by decide) (by decide) (by decide) (by decide)
    ⟨gostr "Example.org", gostr "example.org", by decide, by decide, by decide,
      Or.inl rfl, Or.inr (by decide)⟩).2 _ _ (by decide) (by decide)

/-! ## Seen-set deduplication across the worker pool (C1)

`shouldFetch` consults and updates the seen set in two separate critical
sections (`checkSeen`, crawler.go:734-739, then `addSeen`,
crawler.go:696-700), and only then the worker performs the external fetch
(crawler.go:316).  The model below captures exactly these three atomic
stages per job, for jobs whose metadata is not on disk (so the decision
reduces to the seen set), with one pending job list per worker and an
interleaving of workers chosen nondeterministically. -/

/-- Where a worker stands inside `shouldFetch`/fetch for its current job:
idle, after the `checkSeen` critical section (remembering its answer), or
after the `addSeen` critical section and before the fetch. -/
inductive WorkerPC where
  | idle
  | checkedPC (c : Str) (wasSeen : Bool)
  | addedPC (c : Str)
deriving DecidableEq, Repr

/-- Global state: the seen set, each worker's stage, each worker's pending
job canonicals, and the multiset (list) of canonicals passed to the
external fetch so far. -/
structure CrawlSystem where
  seen : List Str
  pcs : List WorkerPC
  pendings : List (List Str)
  fetched : List Str
deriving DecidableEq, Repr

/-- One atomic step of the worker pool: take the next job and run the
`checkSeen` critical section; drop a job found seen; run the `addSeen`
critical section; or call the external fetch. -/
inductive CrawlStep : CrawlSystem → CrawlSystem → Prop where
  | check (K : CrawlSystem) (t : Nat) (c : Str) (rest : List Str)
      (hpc : K.pcs[t]? = some .idle)
      (hpend : K.pendings[t]? = some (c :: rest)) :
      CrawlStep K { K with pcs := K.pcs.set t (.checkedPC c (K.seen.contains c)),
                           pendings := K.pendings.set t rest }
  | skipSeen (K : CrawlSystem) (t : Nat) (c : Str)
      (hpc : K.pcs[t]? = some (.checkedPC c true)) :
      CrawlStep K { K with pcs := K.pcs.set t .idle }
  | addSeen (K : CrawlSystem) (t : Nat) (c : Str)
      (hpc : K.pcs[t]? = some (.checkedPC c false)) :
      CrawlStep K { K with pcs := K.pcs.set t (.addedPC c), seen := c :: K.seen }
  | fetch (K : CrawlSystem) (t : Nat) (c : Str)
      (hpc : K.pcs[t]? = some (.addedPC c)) :
      CrawlStep K { K with pcs := K.pcs.set t .idle, fetched := c :: K.fetched }

/-- `List.set` at an occupied index, described pointwise. -/
lemma getElem?_set_of_some {α : Type} {l : List α} {j : Nat} {a old : α}
    (h : l[j]? = some old) (i : Nat) :
    (l.set j a)[i]? = if j = i then some a else l[i]? := by
  rcases eq_or_ne j i with rfl | hne
  · have hlt : j < l.length := by
      rcases List.getElem?_eq_some.mp h with ⟨hlt, _⟩
      exact hlt
    simp [List.getElem?_set_eq_of_lt, hlt]
  · simp [List.getElem?_set_ne hne, hne]

/-- Invariant for the ownership argument: worker `t` is the only worker
whose pending jobs mention `c`; no other worker is mid-flight on `c`; a
worker past `addSeen c` implies `c` is seen; a worker past a negative
`checkSeen c` implies `c` is unseen; any in-flight `c` job implies no
fetch of `c` has happened; fetches of `c` imply `c` seen; and `c` was
fetched at most once. -/
def SeenInv (c : Str) (t : Nat) (K : CrawlSystem) : Prop :=
  (∀ i : Nat, i ≠ t → ∀ p, K.pendings[i]? = some p → c ∉ p) ∧
  (∀ i : Nat, i ≠ t → ∀ pc : WorkerPC, K.pcs[i]? = some pc →
    (∀ b, pc ≠ WorkerPC.checkedPC c b) ∧ pc ≠ WorkerPC.addedPC c) ∧
  (∀ i : Nat, K.pcs[i]? = some (WorkerPC.addedPC c) → c ∈ K.seen) ∧
  ((∃ i : Nat, K.pcs[i]? = some (WorkerPC.checkedPC c false) ∨
      K.pcs[i]? = some (WorkerPC.addedPC c)) →
    K.fetched.count c = 0) ∧
  (K.fetched.count c ≤ 1) ∧
  ((∃ i : Nat, K.pcs[i]? = some (WorkerPC.checkedPC c false)) → c ∉ K.seen) ∧
  (0 < K.fetched.count c → c ∈ K.seen)

/-- Every step of the pool preserves the ownership invariant. -/
lemma SeenInv_step {c : Str} {t : Nat} {K K2 : CrawlSystem}
    (h : CrawlStep K K2) (hinv : SeenInv c t K) : SeenInv c t K2 := by
  obtain ⟨h1, h2, h3, h4, h5, h6, h7⟩ := hinv
  cases h with
  | check j cj rest hpc hpend =>
    refine ⟨?_, ?_, ?_, ?_, h5, ?_, h7⟩
    · intro i hit p hp
      rw [getElem?_set_of_some hpend i] at hp
      by_cases hji : j = i
      · subst hji
        rw [if_pos rfl] at hp
        cases hp
        exact fun hcr => h1 j hit _ hpend (List.mem_cons_of_mem cj hcr)
      · rw [if_neg hji] at hp
        exact h1 i hit p hp
    · intro i hit pc hp
      rw [getElem?_set_of_some hpc i] at hp
      by_cases hji : j = i
      · subst hji
        rw [if_pos rfl] at hp
        cases hp
        have hcj : cj ≠ c := fun he =>
          h1 j hit _ hpend (he ▸ List.mem_cons_self cj rest)
        constructor
        · intro b hb
          simp only [WorkerPC.checkedPC.injEq] at hb
          exact hcj hb.1
        · intro hb
          cases hb
      · rw [if_neg hji] at hp
        exact h2 i hit pc hp
    · intro i hp
      rw [getElem?_set_of_some hpc i] at hp
      by_cases hji : j = i
      · subst hji
        rw [if_pos rfl] at hp
        cases hp
      · rw [if_neg hji] at hp
        exact h3 i hp
    · rintro ⟨i, hi⟩
      rw [getElem?_set_of_some hpc i] at hi
      by_cases hji : j = i
      · subst hji
        rw [if_pos rfl] at hi
        rcases hi with hi | hi
        · simp only [Option.some.injEq, WorkerPC.checkedPC.injEq] at hi
          obtain ⟨hcj, hfalse⟩ := hi
          rw [hcj] at hfalse
          have hnot : c ∉ K.seen := by simpa using hfalse
          by_contra hcnt
          exact hnot (h7 (Nat.pos_of_ne_zero hcnt))
        · simp at hi
      · rw [if_neg hji] at hi
        exact h4 ⟨i, hi⟩
    · rintro ⟨i, hi⟩
      rw [getElem?_set_of_some hpc i] at hi
      by_cases hji : j = i
      · subst hji
        rw [if_pos rfl] at hi
        simp only [Option.some.injEq, WorkerPC.checkedPC.injEq] at hi
        obtain ⟨hcj, hfalse⟩ := hi
        rw [hcj] at hfalse
        simpa using hfalse
      · rw [if_neg hji] at hi
        exact h6 ⟨i, hi⟩
  | skipSeen j cj hpc =>
    refine ⟨h1, ?_, ?_, ?_, h5, ?_, h7⟩
    · intro i hit pc hp
      rw [getElem?_set_of_some hpc i] at hp
      by_cases hji : j = i
      · subst hji
        rw [if_pos rfl] at hp
        cases hp
        exact ⟨(fun b hb => nomatch hb), (fun hb => nomatch hb)⟩
      · rw [if_neg hji] at hp
        exact h2 i hit pc hp
    · intro i hp
      rw [getElem?_set_of_some hpc i] at hp
      by_cases hji : j = i
      · subst hji
        rw [if_pos rfl] at hp
        cases hp
      · rw [if_neg hji] at hp
        exact h3 i hp
    · rintro ⟨i, hi⟩
      rw [getElem?_set_of_some hpc i] at hi
      by_cases hji : j = i
      · subst hji
        rw [if_pos rfl] at hi
        rcases hi with hi | hi <;> simp at hi
      · rw [if_neg hji] at hi
        exact h4 ⟨i, hi⟩
    · rintro ⟨i, hi⟩
      rw [getElem?_set_of_some hpc i] at hi
      by_cases hji : j = i
      · subst hji
        rw [if_pos rfl] at hi
        simp at hi
      · rw [if_neg hji] at hi
        exact h6 ⟨i, hi⟩
  | addSeen j cj hpc =>
    refine ⟨h1, ?_, ?_, ?_, h5, ?_, ?_⟩
    · intro i hit pc hp
      rw [getElem?_set_of_some hpc i] at hp
      by_cases hji : j = i
      · subst hji
        rw [if_pos rfl] at hp
        cases hp
        have hcj : cj ≠ c := by
          intro he
          exact ((h2 j hit _ hpc).1 false) (by rw [he])
        constructor
        · intro b hb
          cases hb
        · intro hb
          simp only [WorkerPC.addedPC.injEq] at hb
          exact hcj hb
      · rw [if_neg hji] at hp
        exact h2 i hit pc hp
    · intro i hp
      rw [getElem?_set_of_some hpc i] at hp
      by_cases hji : j = i
      · subst hji
        rw [if_pos rfl] at hp
        simp only [Option.some.injEq, WorkerPC.addedPC.injEq] at hp
        subst hp
        exact List.mem_cons_self cj K.seen
      · rw [if_neg hji] at hp
        exact List.mem_cons_of_mem cj (h3 i hp)
    · rintro ⟨i, hi⟩
      rw [getElem?_set_of_some hpc i] at hi
      by_cases hji : j = i
      · subst hji
        rw [if_pos rfl] at hi
        rcases hi with hi | hi
        · simp at hi
        · simp only [Option.some.injEq, WorkerPC.addedPC.injEq] at hi
          subst hi
          exact h4 ⟨j, Or.inl hpc⟩
      · rw [if_neg hji] at hi
        exact h4 ⟨i, hi⟩
    · rintro ⟨i, hi⟩
      rw [getElem?_set_of_some hpc i] at hi
      by_cases hji : j = i
      · subst hji
        rw [if_pos rfl] at hi
        simp at hi
      · rw [if_neg hji] at hi
        have hnot : c ∉ K.seen := h6 ⟨i, hi⟩
        have hcj : cj ≠ c := by
          by_cases hit : i = t
          · subst hit
            intro he
            exact ((h2 j (fun hh => hji hh) _ hpc).1 false) (by rw [he])
          · exact absurd hi (fun hh => ((h2 i hit _ hh).1 false) rfl)
        simp only [List.mem_cons, not_or]
        exact ⟨fun he => hcj he.symm, hnot⟩
    · intro hcnt
      exact List.mem_cons_of_mem cj (h7 hcnt)
  | fetch j cj hpc =>
    have hcount : ∀ d : Str, cj ≠ d → (cj :: K.fetched).count d = K.fetched.count d :=
      fun d hd => List.count_cons_of_ne (fun he => hd he.symm) K.fetched
    refine ⟨h1, ?_, ?_, ?_, ?_, ?_, ?_⟩
    · intro i hit pc hp
      rw [getElem?_set_of_some hpc i] at hp
      by_cases hji : j = i
      · subst hji
        rw [if_pos rfl] at hp
        cases hp
        exact ⟨(fun b hb => nomatch hb), (fun hb => nomatch hb)⟩
      · rw [if_neg hji] at hp
        exact h2 i hit pc hp
    · intro i hp
      rw [getElem?_set_of_some hpc i] at hp
      by_cases hji : j = i
      · subst hji
        rw [if_pos rfl] at hp
        cases hp
      · rw [if_neg hji] at hp
        exact h3 i hp
    · rintro ⟨i, hi⟩
      rw [getElem?_set_of_some hpc i] at hi
      by_cases hji : j = i
      · subst hji
        rw [if_pos rfl] at hi
        rcases hi with hi | hi <;> simp at hi
      · rw [if_neg hji] at hi
        have hcj : cj ≠ c := by
          intro he
          subst he
          by_cases hjt : j = t
          · subst hjt
            have hit : i ≠ j := fun hh => hji hh.symm
            rcases hi with hi | hi
            · exact ((h2 i hit _ hi).1 false) rfl
            · exact ((h2 i hit _ hi).2) rfl
          · exact ((h2 j hjt _ hpc).2) rfl
        rw [hcount c hcj]
        exact h4 ⟨i, hi⟩
    · by_cases hcj : cj = c
      · subst hcj
        have h0 : K.fetched.count cj = 0 := h4 ⟨j, Or.inr hpc⟩
        simp [h0]
      · rw [hcount c hcj]
        exact h5
    · rintro ⟨i, hi⟩
      rw [getElem?_set_of_some hpc i] at hi
      by_cases hji : j = i
      · subst hji
        rw [if_pos rfl] at hi
        simp at hi
      · rw [if_neg hji] at hi
        exact h6 ⟨i, hi⟩
    · intro hcnt
      by_cases hcj : cj = c
      · subst hcj
        exact h3 j hpc
      · rw [hcount c hcj] at hcnt
        exact h7 hcnt

/-- The invariant transports along reachability. -/
lemma SeenInv_reach {c : Str} {t : Nat} {K0 K : CrawlSystem}
    (h : Relation.ReflTransGen CrawlStep K0 K) (hinv : SeenInv c t K0) :
    SeenInv c t K := by
  induction h with
  | refl => exact hinv
  | tail _ hstep ih => exact SeenInv_step hstep ih

/-- A single worker draining its job list serially with no metadata on
disk: the canonicals fetched, in order, each job passing through
`shouldFetch` against the current seen set (crawler.go:298-321). -/
def serialFetches (seen : List Str) : List Str → List Str
  | [] => []
  | c :: rest =>
    match shouldFetch seen c .notExist 0 0 with
    | .ok (true, seen2) => c :: serialFetches seen2 rest
    | .ok (false, seen2) => serialFetches seen2 rest
    | .error _ => serialFetches seen rest

/-- The canonical of the racing example, shared by the C1 theorems. -/
def cexCanonical : Str := gostr "gemini://example.org/path"

/-- C1 (amended): when every job carrying a given canonical sits in a
single worker's queue, no interleaving of the pool fetches that canonical
more than once; and the two port-variant queued inputs of the claim
normalize to the same canonical with the same `pageID` host, so host
affinity does route them to one worker, which serially fetches exactly
once.  (The unamended claim fails because equal canonicals can carry
different `pageID` hosts and land on different workers; see the
counterexample.) -/
theorem seen_dedup_single_owner (c : Str) (t : Nat) (K0 K : CrawlSystem)
    (hidle : ∀ i : Nat, ∀ pc : WorkerPC, K0.pcs[i]? = some pc → pc = WorkerPC.idle)
    (hfetched : K0.fetched = [])
    (hown : ∀ i : Nat, i ≠ t → ∀ p, K0.pendings[i]? = some p → c ∉ p)
    (hreach : Relation.ReflTransGen CrawlStep K0 K) :
    K.fetched.count c ≤ 1 ∧
    (normalizeURL (gostr "gemini://example.org/a")).map Prod.snd
      = (normalizeURL (gostr "gemini://example.org:1965/a")).map Prod.snd ∧
    (normalizeURL (gostr "gemini://example.org/a")).map (fun p => pageIDHost p.1)
      = (normalizeURL (gostr "gemini://example.org:1965/a")).map (fun p => pageIDHost p.1) ∧
    serialFetches [] [gostr "gemini://example.org/a", gostr "gemini://example.org/a"]
      = [gostr "gemini://example.org/a"] := by
  have hinv0 : SeenInv c t K0 := by
    refine ⟨hown, ?_, ?_, ?_, ?_, ?_, ?_⟩
    · intro i _ pc hp
      have := hidle i pc hp
      subst this
      exact ⟨(fun b hb => nomatch hb), (fun hb => nomatch hb)⟩
    · intro i hp
      exact absurd (hidle i _ hp) (fun hh => nomatch hh)
    · intro _
      simp [hfetched]
    · simp [hfetched]
    · rintro ⟨i, hi⟩
      exact absurd (hidle i _ hi) (fun hh => nomatch hh)
    · simp [hfetched]
  refine ⟨(SeenInv_reach hreach hinv0).2.2.2.2.1, by decide, by decide, by decide⟩

/-- Concrete instance of `seen_dedup_single_owner`: a two-worker pool
where only worker 0 holds jobs for the canonical, taken zero steps, has
fetched it at most once. -/
theorem seen_dedup_single_owner_witness :
    (⟨[], [WorkerPC.idle, WorkerPC.idle], [[cexCanonical, cexCanonical], []],
      []⟩ : CrawlSystem).fetched.count cexCanonical ≤ 1 := by
  refine (seen_dedup_single_owner cexCanonical 0 _ _ ?_ rfl ?_
    Relation.ReflTransGen.refl).1
  · intro i pc hp
    match i, hp with
    | 0, hp => cases hp; rfl
    | 1, hp => cases hp; rfl
  · intro i hi p hp
    match i, hp with
    | 1, hp => cases hp; decide

/-- C1 (counterexample): the at-most-once property fails as claimed.  The
scheme-less queued input `example.org/path` and the queued input
`gemini://example.org/path` normalize to the *same* canonical but carry
*different* `pageID` hosts (`""` vs `example.org`), so
`findWorkerToDoTheJob` can route them to different workers (shown in a
reachable routing state); two workers then interleave their separate
`checkSeen`/`addSeen` critical sections so that both pass `checkSeen`
before either `addSeen`, and the canonical reaches the external fetch
twice. -/
theorem seen_race_double_fetch :
    (∃ u1 : GoURL × Str, normalizeURL (gostr "example.org/path") = some u1 ∧
      u1.2 = cexCanonical ∧ pageIDHost u1.1 = gostr "") ∧
    (∃ u2 : GoURL × Str, normalizeURL (gostr "gemini://example.org/path") = some u2 ∧
      u2.2 = cexCanonical ∧ pageIDHost u2.1 = gostr "example.org") ∧
    (findWorkerToDoTheJob ⟨[[], []], [0, 0]⟩ (gostr "")).1 = 1 ∧
    (findWorkerToDoTheJob ⟨[[], [gostr ""]], [0, 1]⟩ (gostr "example.org")).1 = 0 ∧
    Relation.ReflTransGen CrawlStep
      ⟨[], [WorkerPC.idle, WorkerPC.idle], [[cexCanonical], [cexCanonical]], []⟩
      ⟨[cexCanonical, cexCanonical], [WorkerPC.idle, WorkerPC.idle], [[], []],
        [cexCanonical, cexCanonical]⟩ ∧
    ([cexCanonical, cexCanonical] : List Str).count cexCanonical = 2 := by
  refine ⟨⟨({ scheme := gostr "gemini", opq := [], host := [],
              path := gostr "example.org/path", rawQuery := [], fragment := [] },
            cexCanonical), by decide, rfl, by decide⟩,
          ⟨({ scheme := gostr "gemini", opq := [], host := gostr "example.org",
              path := gostr "/path", rawQuery := [], fragment := [] },
            cexCanonical), by decide, rfl, by decide⟩,
          by decide, by decide, ?_, by decide⟩
  exact Relation.ReflTransGen.head (CrawlStep.check _ 0 cexCanonical [] rfl rfl)
    (Relation.ReflTransGen.head (CrawlStep.check _ 1 cexCanonical [] rfl rfl)
      (Relation.ReflTransGen.head (CrawlStep.addSeen _ 0 cexCanonical rfl)
        (Relation.ReflTransGen.head (CrawlStep.fetch _ 0 cexCanonical rfl)
          (Relation.ReflTransGen.head (CrawlStep.addSeen _ 1 cexCanonical rfl)
            (Relation.ReflTransGen.head (CrawlStep.fetch _ 1 cexCanonical rfl)
              Relation.ReflTransGen.refl)))))

/-! ## Idempotence of normalization (C9): support lemmas -/

/-- One unfolding of `cutChar`. -/
lemma cutChar_cons (sep c : Char) (l : Str) :
    cutChar sep (c :: l)
      = if c = sep then some ([], l)
        else (cutChar sep l).map (fun p => (c :: p.1, p.2)) := rfl

/-- `cutChar` passes over a separator-free chunk. -/
lemma cutChar_append_left {sep : Char} {a : Str} (h : sep ∉ a) (b : Str) :
    cutChar sep (a ++ b) = (cutChar sep b).map (fun q => (a ++ q.1, q.2)) := by
  induction a with
  | nil =>
    rw [List.nil_append]
    rcases hc : cutChar sep b with _ | ⟨q1, q2⟩ <;> simp [hc]
  | cons c rest ih =>
    simp only [List.mem_cons, not_or] at h
    have hne : ¬ c = sep := fun hc => h.1 hc.symm
    rw [List.cons_append, cutChar_cons, if_neg hne, ih h.2]
    rcases hc : cutChar sep b with _ | ⟨q1, q2⟩ <;> simp [hc]

/-- One unfolding of `unescapePath` at a non-escape character. -/
lemma unescapePath_cons_ne {c : Char} (hne : ¬ c = '%') (l : Str) :
    unescapePath (c :: l) = (unescapePath l).map (fun t => c :: t) := by
  cases l with
  | nil => simp [unescapePath, hne]
  | cons d l2 =>
    cases l2 with
    | nil => simp [unescapePath, hne]
    | cons e l3 => simp [unescapePath, hne]

/-- Decoding is the identity on percent-free strings. -/
lemma unescapePath_of_no_pct {s : Str} (h : '%' ∉ s) : unescapePath s = some s := by
  induction s with
  | nil => rfl
  | cons c rest ih =>
    simp only [List.mem_cons, not_or] at h
    have hne : ¬ c = '%' := fun hc => h.1 hc.symm
    rw [unescapePath_cons_ne hne, ih h.2]
    rfl

/-- One unfolding of `unescapeHost` at a non-escape character. -/
lemma unescapeHost_cons_ne {c : Char} (hne : ¬ c = '%') (l : Str) :
    unescapeHost (c :: l) = (unescapeHost l).map (fun t => c :: t) := by
  cases l with
  | nil => simp [unescapeHost, hne]
  | cons d l2 =>
    cases l2 with
    | nil => simp [unescapeHost, hne]
    | cons e l3 => simp [unescapeHost, hne]

/-- Host decoding is the identity on percent-free strings. -/
lemma unescapeHost_of_no_pct {s : Str} (h : '%' ∉ s) : unescapeHost s = some s := by
  induction s with
  | nil => rfl
  | cons c rest ih =>
    simp only [List.mem_cons, not_or] at h
    have hne : ¬ c = '%' := fun hc => h.1 hc.symm
    rw [unescapeHost_cons_ne hne, ih h.2]
    rfl

/-- `getScheme` on a `gemini://`-prefixed string. -/
lemma getScheme_gemini (r : Str) :
    getScheme (gostr "gemini://" ++ r) = some (gostr "gemini", '/' :: '/' :: r) := rfl

/-- `trimSpace` is the identity on whitespace-free strings. -/
lemma trimSpace_of_no_space {s : Str} (h : ∀ c ∈ s, isSpaceChar c = false) :
    trimSpace s = s := by
  have hdrop : ∀ l : Str, (∀ c ∈ l, isSpaceChar c = false) → l.dropWhile isSpaceChar = l := by
    intro l hl
    cases l with
    | nil => rfl
    | cons c rest => simp [List.dropWhile, hl c (by simp)]
  unfold trimSpace
  rw [hdrop s h, hdrop s.reverse (fun c hc => h c (List.mem_reverse.mp hc)), List.reverse_reverse]

/-- Shape of `splitKeepChar`: the parts recompose, the first part is
separator-free, and the second is empty or starts with the separator. -/
lemma splitKeepChar_shape (sep : Char) (s : Str) :
    s = (splitKeepChar sep s).1 ++ (splitKeepChar sep s).2 ∧
    sep ∉ (splitKeepChar sep s).1 ∧
    ((splitKeepChar sep s).2 = [] ∨ ∃ br, (splitKeepChar sep s).2 = sep :: br) := by
  induction s with
  | nil => exact ⟨rfl, List.not_mem_nil sep, Or.inl rfl⟩
  | cons c rest ih =>
    by_cases hc : c = sep
    · subst hc
      refine ⟨by simp [splitKeepChar], by simp [splitKeepChar], Or.inr ⟨rest, by simp [splitKeepChar]⟩⟩
    · obtain ⟨h1, h2, h3⟩ := ih
      refine ⟨?_, ?_, ?_⟩
      · simpa [splitKeepChar, hc] using congrArg (c :: ·) h1
      · simp only [splitKeepChar, if_neg hc]
        simp only [List.mem_cons, not_or]
        exact ⟨fun hh => hc hh.symm, h2⟩
      · simpa [splitKeepChar, hc] using h3
    
/-- `splitKeepChar` recovers an explicit decomposition. -/
lemma splitKeepChar_append {sep : Char} {a b : Str} (h : sep ∉ a)
    (hb : b = [] ∨ ∃ br, b = sep :: br) : splitKeepChar sep (a ++ b) = (a, b) := by
  induction a with
  | nil =>
    rcases hb with rfl | ⟨br, rfl⟩
    · rfl
    · simp [splitKeepChar]
  | cons c rest ih =>
    simp only [List.mem_cons, not_or] at h
    have hne : ¬ c = sep := fun hc => h.1 hc.symm
    simp [splitKeepChar, hne, ih h.2]

/-- `toLower` maps no character to a special (non-letter) character other
than itself, so absence of such a character is preserved. -/
lemma toLowerStr_not_mem {d : Char} (hd1 : d.toNat < 65 ∨ 90 < d.toNat)
    (hd2 : d.toNat < 97 ∨ 122 < d.toNat) {b : Str} (h : d ∉ b) :
    d ∉ toLowerStr b := by
  intro hmem
  obtain ⟨c, hc, hlc⟩ := List.mem_map.mp hmem
  rw [toLower_reflects_special hd1 hd2 c] at hlc
  exact h (hlc ▸ hc)

/-- Either the strip is the identity, or the host was exactly the
stripped host followed by the default port. -/
lemma stripDefaultPort_cases (y : Str) :
    stripDefaultPort y = y ∨
    (y = stripDefaultPort y ++ ':' :: geminiPort ∧ ':' ∉ stripDefaultPort y) := by
  unfold stripDefaultPort
  by_cases hcont : y.contains ':'
  · rcases hcut : cutChar ':' y with _ | ⟨h1, pp⟩
    · simp [hcont, hcut]
    · obtain ⟨hy, hnot⟩ := cutChar_eq_some hcut
      by_cases hp : pp = geminiPort
      · simp only [hcont, if_true, hcut, hp, if_pos rfl]
        exact Or.inr ⟨by rw [← hp]; exact hy, hnot⟩
      · simp [hcont, hcut, hp]
  · have hmem : ':' ∉ y := by simpa using hcont
    left
    simp [hmem]

/-- Strings fixed by `toLower` pointwise stay fixed as members. -/
lemma toLowerStr_fixed_of_mem_image {y : Str} (h : ∀ c ∈ y, c.toLower = c) :
    toLowerStr y = y := by
  unfold toLowerStr
  induction y with
  | nil => rfl
  | cons c rest ih =>
    simp only [List.map_cons, h c (by simp)]
    rw [ih (fun d hd => h d (by simp [hd]))]

/-- Every character of `toLowerStr y` is `toLower`-fixed. -/
lemma toLowerStr_mem_fixed {y : Str} {c : Char} (h : c ∈ toLowerStr y) :
    c.toLower = c := by
  obtain ⟨d, _, hd⟩ := List.mem_map.mp h
  rw [← hd]
  exact toLower_toLower d

/-- `Char.isDigit` through code points. -/
lemma char_isDigit_iff (c : Char) : c.isDigit = decide (48 ≤ c.toNat ∧ c.toNat ≤ 57) := by
  have h48 : (UInt32.toBitVec 48).toNat = 48 := rfl
  have h57 : (UInt32.toBitVec 57).toNat = 57 := rfl
  have hX : c.val.toBitVec.toNat = c.toNat := rfl
  simp only [Char.isDigit, UInt32.le_def, BitVec.le_def, h48, h57, hX, Bool.decide_and]

/-- `isDigit` is invariant under `toLower`. -/
lemma isDigit_toLower (c : Char) : c.toLower.isDigit = c.isDigit := by
  rw [Char.toLower]
  split <;> rename_i hcase
  · rw [char_isDigit_iff, char_isDigit_iff]
    have hv : (Char.ofNat (c.toNat + 32)).toNat = c.toNat + 32 :=
      char_toNat_ofNat_of_lt (by omega)
    rw [hv]
    have h1 : ¬(48 ≤ c.toNat + 32 ∧ c.toNat + 32 ≤ 57) := by omega
    have h2 : ¬(48 ≤ c.toNat ∧ c.toNat ≤ 57) := by omega
    rw [decide_eq_false h1, decide_eq_false h2]
  · rfl

/-- `validOptionalPort` rejects anything not starting with a colon. -/
lemma validOptionalPort_cons_ne {x : Char} {l : Str} (hx : ¬ x = ':') :
    validOptionalPort (x :: l) = false := by
  unfold validOptionalPort
  split
  · rename_i heq
    cases heq
  · rename_i heq
    injection heq with h1 h2
    exact absurd h1 hx
  · rfl

/-- `validOptionalPort` on a colon-headed string checks the digits. -/
lemma validOptionalPort_cons_colon (l : Str) :
    validOptionalPort (':' :: l) = l.all Char.isDigit := rfl

/-- `validOptionalPort` is invariant under `toLower`. -/
lemma validOptionalPort_toLower (p : Str) :
    validOptionalPort (toLowerStr p) = validOptionalPort p := by
  cases p with
  | nil => rfl
  | cons c rest =>
    have hmap : toLowerStr (c :: rest) = c.toLower :: toLowerStr rest := rfl
    rw [hmap]
    by_cases hc : c = ':'
    · subst hc
      have hcl : Char.toLower ':' = ':' := by decide
      rw [hcl, validOptionalPort_cons_colon, validOptionalPort_cons_colon]
      unfold toLowerStr
      rw [List.all_map]
      have hfun : (Char.isDigit ∘ Char.toLower) = Char.isDigit := funext isDigit_toLower
      rw [hfun]
    · have hlc : ¬ Char.toLower c = ':' :=
        fun hh => hc ((toLower_reflects_special (by decide) (by decide) c).mp hh)
      rw [validOptionalPort_cons_ne hc, validOptionalPort_cons_ne hlc]

/-- What `afterLastChar` returns: separator-free and within the string. -/
lemma afterLastChar_eq_some {sep : Char} {s a : Str}
    (h : afterLastChar sep s = some a) : sep ∉ a ∧ ∀ x ∈ a, x ∈ s := by
  unfold afterLastChar at h
  by_cases hcont : s.contains sep
  · rw [if_pos hcont] at h
    cases h
    constructor
    · intro hmem
      have := List.mem_takeWhile_imp (List.mem_reverse.mp hmem)
      simp at this
    · intro x hx
      have hx2 := (List.takeWhile_sublist _).mem (List.mem_reverse.mp hx)
      exact List.mem_reverse.mp hx2
  · rw [if_neg hcont] at h
    cases h

/-- `afterLastChar` is `none` exactly without the separator. -/
lemma afterLastChar_eq_none {sep : Char} {s : Str}
    (h : afterLastChar sep s = none) : sep ∉ s := by
  unfold afterLastChar at h
  by_cases hcont : s.contains sep
  · rw [if_pos hcont] at h
    cases h
  · simpa using hcont

/-- `takeWhile` passes over an all-passing chunk. -/
lemma takeWhile_append_all {p : Char → Bool} {a : Str} (h : ∀ y ∈ a, p y = true)
    (b : Str) : (a ++ b).takeWhile p = a ++ b.takeWhile p := by
  induction a with
  | nil => rfl
  | cons y a ih =>
    have hy := h y (by simp)
    simp only [List.cons_append, List.takeWhile_cons, hy, if_true]
    rw [ih (fun z hz => h z (by simp [hz]))]

/-- `afterLastChar` over an append whose second part lacks the
separator. -/
lemma afterLastChar_append {sep : Char} {a : Str} (b : Str) (hmem : sep ∈ a)
    (hb : sep ∉ b) :
    afterLastChar sep (a ++ b) = (afterLastChar sep a).map (· ++ b) := by
  have hcont : (a ++ b).contains sep = true := by
    simp [List.mem_append]
    exact Or.inl hmem
  have hconta : a.contains sep = true := by simpa using hmem
  unfold afterLastChar
  rw [if_pos hcont, if_pos hconta]
  simp only [Option.map_some']
  rw [List.reverse_append]
  rw [takeWhile_append_all (fun y hy => by
    simp only [bne_iff_ne, ne_eq]
    exact fun he => hb (he ▸ List.mem_reverse.mp hy)) _]
  rw [List.reverse_append, List.reverse_reverse]

/-- `afterLastChar` commutes with `toLower` for a `toLower`-rigid
separator. -/
lemma afterLastChar_toLower {sep : Char}
    (hrefl : ∀ c : Char, c.toLower = sep ↔ c = sep) (s : Str) :
    afterLastChar sep (toLowerStr s) = (afterLastChar sep s).map toLowerStr := by
  have hcontiff : (toLowerStr s).contains sep = s.contains sep := by
    by_cases hmem : sep ∈ s
    · have h2 : sep ∈ toLowerStr s :=
        List.mem_map.mpr ⟨sep, hmem, (hrefl sep).mpr rfl⟩
      simp [hmem, h2]
    · have h2 : sep ∉ toLowerStr s := by
        intro hc
        obtain ⟨d, hd, hld⟩ := List.mem_map.mp hc
        exact hmem ((hrefl d).mp hld ▸ hd)
      simp [hmem, h2]
  unfold afterLastChar
  rw [hcontiff]
  by_cases hcont : s.contains sep
  · rw [if_pos hcont, if_pos hcont]
    simp only [Option.map_some']
    unfold toLowerStr
    rw [← List.map_reverse, List.takeWhile_map]
    have hfun : ((fun c => c != sep) ∘ Char.toLower) = (fun c => c != sep) := by
      funext d
      show (d.toLower != sep) = (d != sep)
      by_cases hd : d = sep
      · subst hd
        rw [(hrefl d).mpr rfl]
      · have hld : d.toLower ≠ sep := fun hh => hd ((hrefl d).mp hh)
        have h1 : (d.toLower != sep) = true := bne_iff_ne.mpr hld
        have h2 : (d != sep) = true := bne_iff_ne.mpr hd
        rw [h1, h2]
    rw [hfun, List.map_reverse]
  · rw [if_neg hcont, if_neg hcont]
    rfl

/-- A string with a valid optional port appended after a colon must be
empty before the colon. -/
lemma validOptionalPort_append {A ds : Str}
    (h : validOptionalPort (A ++ ':' :: ds) = true) : A = [] := by
  cases A with
  | nil => rfl
  | cons x A2 =>
    by_cases hx : x = ':'
    · subst hx
      rw [List.cons_append, validOptionalPort_cons_colon] at h
      have : Char.isDigit ':' = false := by decide
      have hmem : ':' ∈ A2 ++ ':' :: ds := by simp
      have := List.all_eq_true.mp h ':' hmem
      simp_all
    · rw [List.cons_append, validOptionalPort_cons_ne hx] at h
      cases h

/-- Bracket heads survive `toLower` in both directions. -/
lemma isBracketHead_toLower (y : Str) :
    (gostr "[").isPrefixOf (toLowerStr y) = (gostr "[").isPrefixOf y := by
  cases y with
  | nil => rfl
  | cons c rest =>
    have hmap : toLowerStr (c :: rest) = c.toLower :: toLowerStr rest := rfl
    rw [hmap]
    show ('[' == c.toLower && List.isPrefixOf [] (toLowerStr rest))
      = ('[' == c && List.isPrefixOf [] rest)
    simp only [List.isPrefixOf, Bool.and_true]
    by_cases hc : c = '['
    · subst hc
      rfl
    · have hlc : ¬ Char.toLower c = '[' :=
        fun hh => hc ((toLower_reflects_special (by decide) (by decide) c).mp hh)
      have h1 : ('[' == c.toLower) = false := by
        simp [beq_iff_eq]
        exact fun hh => hlc hh.symm
      have h2 : ('[' == c) = false := by
        simp [beq_iff_eq]
        exact fun hh => hc hh.symm
      rw [h1, h2]

/-- Head test underlying the bracketed-host check. -/
lemma bracketHead_cons (c : Char) (l : Str) :
    (gostr "[").isPrefixOf (c :: l) = ('[' == c) := by
  show ('[' == c && List.isPrefixOf [] l) = ('[' == c)
  simp [List.isPrefixOf]

/-- `hostOK` survives lowercasing. -/
lemma hostOK_toLower {y : Str} (h : hostOK y = true) :
    hostOK (toLowerStr y) = true := by
  unfold hostOK at h ⊢
  rw [isBracketHead_toLower]
  by_cases hbr : (gostr "[").isPrefixOf y
  · rw [if_pos hbr] at h ⊢
    rw [afterLastChar_toLower
      (fun c => toLower_reflects_special (by decide) (by decide) c)]
    rcases hal : afterLastChar ']' y with _ | after
    · rw [hal] at h
      cases h
    · rw [hal] at h
      simp only [Option.map_some']
      rw [validOptionalPort_toLower]
      exact h
  · rw [if_neg hbr] at h ⊢
    rw [afterLastChar_toLower
      (fun c => toLower_reflects_special (by decide) (by decide) c)]
    rcases hal : afterLastChar ':' y with _ | after
    · simp
    · rw [hal] at h
      simp only [Option.map_some']
      have hvp := validOptionalPort_toLower (':' :: after)
      have hmap : toLowerStr (':' :: after) = ':' :: toLowerStr after := by
        show Char.toLower ':' :: toLowerStr after = ':' :: toLowerStr after
        rfl
      rw [hmap] at hvp
      rw [hvp]
      exact h

/-- `hostOK` survives stripping the default port. -/
lemma hostOK_strip {y : Str} (h : hostOK y = true) :
    hostOK (stripDefaultPort y) = true := by
  rcases stripDefaultPort_cases y with heq | ⟨hy, hnc⟩
  · rw [heq]
    exact h
  · revert hy hnc
    generalize stripDefaultPort y = h1
    intro hy hnc
    cases h1 with
    | nil => decide
    | cons c h1r =>
      by_cases hcbr : c = '['
      · subst hcbr
        have hybr : (gostr "[").isPrefixOf y = true := by
          rw [hy]
          exact bracketHead_cons '[' _ ▸ rfl
        unfold hostOK at h
        rw [if_pos hybr] at h
        by_cases hbm : ']' ∈ ('[' :: h1r : Str)
        · have happ := afterLastChar_append (':' :: geminiPort) hbm (by decide)
          rw [← hy] at happ
          rcases hal : afterLastChar ']' ('[' :: h1r : Str) with _ | A1
          · exact absurd hal (fun hh => (by simpa using afterLastChar_eq_none hh : ']' ∉ _) hbm)
          · rw [hal] at happ
            simp only [Option.map_some'] at happ
            rw [happ] at h
            have hA1 : A1 = [] := validOptionalPort_append h
            unfold hostOK
            rw [if_pos (by rw [bracketHead_cons]; rfl), hal, hA1]
            rfl
        · exfalso
          have hnm : ']' ∉ y := by
            rw [hy]
            simp only [List.mem_append, List.mem_cons]
            rintro (hc | hc)
            · exact hbm (List.mem_cons.mpr hc)
            · rcases hc with hc | hc
              · cases hc
              · have : ']' ∈ geminiPort := hc
                simp [geminiPort, gostr] at this
          have : afterLastChar ']' y = none := by
            unfold afterLastChar
            rw [if_neg (by simpa using hnm)]
          rw [this] at h
          cases h
      · unfold hostOK
        have hne : ('[' == c) = false := by
          simp [beq_iff_eq]
          exact fun hh => hcbr hh.symm
        rw [bracketHead_cons, hne]
        simp only [Bool.false_eq_true, if_false]
        have : afterLastChar ':' (c :: h1r) = none := by
          unfold afterLastChar
          rw [if_neg (by simpa using hnc)]
        rw [this]

/-- Converse of `cutChar_eq_none`. -/
lemma not_mem_of_cutChar_eq_none {sep : Char} {s : Str} (h : cutChar sep s = none) :
    sep ∉ s := by
  induction s with
  | nil => simp
  | cons c rest ih =>
    rw [cutChar_cons] at h
    by_cases hc : c = sep
    · rw [if_pos hc] at h
      cases h
    · rw [if_neg hc] at h
      simp only [List.mem_cons, not_or]
      refine ⟨fun hh => hc hh.symm, ?_⟩
      rcases hcut : cutChar sep rest with _ | q
      · exact ih hcut
      · rw [hcut] at h
        cases h

/-- The query split leaves a `?`-free string untouched. -/
lemma querySplit_no_mark {rest : Str} (h : '?' ∉ rest) : querySplit rest = (rest, []) := by
  unfold querySplit
  have h1 : ¬ (rest.getLast? = some '?' ∧ ¬(rest.dropLast.contains '?')) := by
    rintro ⟨hlast, -⟩
    exact h (List.mem_of_mem_getLast? (by rw [hlast]; rfl))
  rw [if_neg h1, cutChar_eq_none h]

/-- The query split cuts at the separator when the part before it is
`?`-free. -/
lemma querySplit_sep {A q : Str} (hA : '?' ∉ A) :
    querySplit (A ++ '?' :: q) = (A, q) := by
  unfold querySplit
  cases q with
  | nil =>
    have h1 : (A ++ ['?'] : Str).getLast? = some '?' := by
      rw [List.getLast?_eq_some_iff]
      exact ⟨A, rfl⟩
    have h2 : (A ++ ['?'] : Str).dropLast = A := by
      simp
    rw [if_pos ⟨h1, by rw [h2]; simpa using hA⟩, h2]
  | cons q0 qr =>
    have hcond : ¬ ((A ++ '?' :: q0 :: qr : Str).getLast? = some '?' ∧
        ¬((A ++ '?' :: q0 :: qr : Str).dropLast.contains '?')) := by
      rintro ⟨-, hnc⟩
      apply hnc
      have hdl : (A ++ '?' :: q0 :: qr : Str).dropLast
          = A ++ ('?' :: q0 :: qr : Str).dropLast := by
        rw [List.dropLast_append_of_ne_nil]
        simp
      have hq : '?' ∈ (A ++ ('?' :: q0 :: qr : Str).dropLast : Str) := by
        simp [List.dropLast_cons_of_ne_nil]
      rw [hdl]
      simp
    rw [if_neg hcond, cutChar_append hA]

/-- Shape of the query split after `//`. -/
lemma querySplit_cons2 (t1 : Str) :
    ∃ t2 q, querySplit ('/' :: '/' :: t1) = ('/' :: '/' :: t2, q) ∧
      '?' ∉ t2 ∧ (∀ x ∈ t2, x ∈ t1) ∧ (∀ x ∈ q, x ∈ t1) := by
  unfold querySplit
  by_cases hforce : (('/' :: '/' :: t1 : Str).getLast? = some '?' ∧
      ¬(('/' :: '/' :: t1 : Str).dropLast.contains '?'))
  · obtain ⟨hlast, hnc⟩ := hforce
    have ht1 : t1 ≠ [] := by
      intro he
      subst he
      exact absurd hlast (by decide)
    have hdl : ('/' :: '/' :: t1 : Str).dropLast = '/' :: '/' :: t1.dropLast := by
      rw [List.dropLast_cons_of_ne_nil (by simp), List.dropLast_cons_of_ne_nil ht1]
    rw [if_pos ⟨hlast, hnc⟩, hdl]
    rw [hdl] at hnc
    refine ⟨t1.dropLast, [], rfl, ?_, fun x hx => List.dropLast_subset t1 hx, by simp⟩
    intro hm
    exact (by simpa using hnc : '?' ∉ ('/' :: '/' :: t1.dropLast : Str)) (by simp [hm])
  · rw [if_neg hforce]
    rcases hcut : cutChar '?' ('/' :: '/' :: t1 : Str) with _ | ⟨a, b⟩
    · refine ⟨t1, [], rfl, ?_, fun x hx => hx, by simp⟩
      have hnm := not_mem_of_cutChar_eq_none hcut
      simp only [List.mem_cons, not_or] at hnm
      exact hnm.2.2
    · obtain ⟨hs, hna⟩ := cutChar_eq_some hcut
      cases a with
      | nil =>
        injection hs with h1 _
        exact absurd h1 (by decide)
      | cons x a1 =>
        cases a1 with
        | nil =>
          injection hs with h1 h2
          injection h2 with h2a _
          exact absurd h2a (by decide)
        | cons y a2 =>
          injection hs with h1 h2
          injection h2 with h2a h2b
          subst h1
          subst h2a
          refine ⟨a2, b, rfl, ?_, ?_, ?_⟩
          · intro hm
            exact hna (by simp [hm])
          · intro z hz
            rw [h2b]
            simp [hz]
          · intro z hz
            rw [h2b]
            simp [hz]

/-- Shape of a successful `parseNoFrag` of a `gemini://`-prefixed,
percent-free, hash-free string: the scheme is gemini, the host contains
no delimiter characters and passes the host checks, the path is empty or
absolute, and path and query are free of the relevant delimiters. -/
lemma parseNoFrag_gemini_shape {t1 : Str} {v : GoURL} (hpct : '%' ∉ t1)
    (hhash : '#' ∉ t1) (hv : parseNoFrag (gostr "gemini://" ++ t1) = some v) :
    v.scheme = gostr "gemini" ∧
    ('/' ∉ v.host ∧ '?' ∉ v.host ∧ '#' ∉ v.host ∧ '%' ∉ v.host ∧ '@' ∉ v.host) ∧
    hostOK v.host = true ∧
    (v.path = [] ∨ ∃ pr, v.path = '/' :: pr) ∧
    ('?' ∉ v.path ∧ '#' ∉ v.path ∧ '%' ∉ v.path) ∧
    '#' ∉ v.rawQuery ∧
    (∀ c ∈ v.host, c ∈ t1) ∧ (∀ c ∈ v.path, c ∈ t1) ∧ (∀ c ∈ v.rawQuery, c ∈ t1) := by
  unfold parseNoFrag at hv
  rw [getScheme_gemini] at hv
  simp only [Option.bind_eq_bind, Option.some_bind] at hv
  obtain ⟨t2, q, hqs, hqt2, hsub2, hsubq⟩ := querySplit_cons2 t1
  rw [hqs] at hv
  have hpre1 : (gostr "/").isPrefixOf ('/' :: '/' :: t2 : Str) = true := by
    simp [gostr, List.isPrefixOf]
  have hpre2 : (gostr "//").isPrefixOf ('/' :: '/' :: t2 : Str) = true := by
    simp [gostr, List.isPrefixOf]
  rw [hpre1] at hv
  simp only [Bool.true_eq_false, not_true_eq_false, if_false, ite_not] at hv
  rw [hpre2] at hv
  simp only [if_true] at hv
  have hdrop : (('/' :: '/' :: t2 : Str).drop 2) = t2 := rfl
  rw [hdrop] at hv
  obtain ⟨hsplit, hnoslash, hshape⟩ := splitKeepChar_shape '/' t2
  set A := (splitKeepChar '/' t2).1 with hA
  set R := (splitKeepChar '/' t2).2 with hR
  have hmemA : ∀ x ∈ A, x ∈ t2 := fun x hx => by rw [hsplit]; simp [hx]
  have hmemR : ∀ x ∈ R, x ∈ t2 := fun x hx => by rw [hsplit]; simp [hx]
  have hpctR : '%' ∉ R := fun hm => hpct (hsub2 _ (hmemR _ hm))
  rcases hauth : parseAuthority A with _ | host
  · rw [hauth] at hv
    cases hv
  · rw [hauth, unescapePath_of_no_pct hpctR] at hv
    simp only [Option.bind_eq_bind, Option.some_bind, Option.pure_def] at hv
    have hhost : ('/' ∉ host ∧ '?' ∉ host ∧ '#' ∉ host ∧ '%' ∉ host ∧ '@' ∉ host) ∧
        hostOK host = true ∧ (∀ c ∈ host, c ∈ t1) := by
      unfold parseAuthority at hauth
      have hfacts : ∀ hp : Str, '@' ∉ hp → (∀ x ∈ hp, x ∈ A) →
          parseHost hp = some host →
          ('/' ∉ host ∧ '?' ∉ host ∧ '#' ∉ host ∧ '%' ∉ host ∧ '@' ∉ host) ∧
          hostOK host = true ∧ (∀ c ∈ host, c ∈ t1) := by
        intro hp hat hsubhp hph
        unfold parseHost at hph
        by_cases hok : hostOK hp
        · rw [if_pos hok] at hph
          have hpcthp : '%' ∉ hp := fun hm => hpct (hsub2 _ (hmemA _ (hsubhp _ hm)))
          rw [unescapeHost_of_no_pct hpcthp] at hph
          cases hph
          refine ⟨⟨?_, ?_, ?_, ?_, hat⟩, hok, ?_⟩
          · exact fun hm => hnoslash (hsubhp _ hm)
          · exact fun hm => hqt2 (hmemA _ (hsubhp _ hm))
          · exact fun hm => hhash (hsub2 _ (hmemA _ (hsubhp _ hm)))
          · exact hpcthp
          · exact fun c hc => hsub2 _ (hmemA _ (hsubhp _ hc))
        · rw [if_neg hok] at hph
          cases hph
      rcases hal : afterLastChar '@' A with _ | hp
      · rw [hal] at hauth
        exact hfacts A (afterLastChar_eq_none hal) (fun x hx => hx) hauth
      · rw [hal] at hauth
        obtain ⟨hat, hsubhp⟩ := afterLastChar_eq_some hal
        exact hfacts hp hat hsubhp hauth
    cases hv
    refine ⟨rfl, hhost.1, hhost.2.1, ?_, ?_, ?_, hhost.2.2, ?_, ?_⟩
    · rcases hshape with hR0 | ⟨br, hRc⟩
      · exact Or.inl hR0
      · exact Or.inr ⟨br, hRc⟩
    · refine ⟨?_, ?_, ?_⟩
      · exact fun hm => hqt2 (hmemR _ hm)
      · exact fun hm => hhash (hsub2 _ (hmemR _ hm))
      · exact hpctR
    · exact fun hm => hhash (hsubq _ hm)
    · exact fun c hc => hsub2 _ (hmemR _ hc)
    · exact fun c hc => hsubq _ hc

/-- Shape of a successful `parseURL` of a `gemini://`-prefixed,
percent-free string. -/
lemma parseURL_gemini_shape {t : Str} {u : GoURL} (hpct : '%' ∉ t)
    (hu : parseURL (gostr "gemini://" ++ t) = some u) :
    u.scheme = gostr "gemini" ∧
    ('/' ∉ u.host ∧ '?' ∉ u.host ∧ '#' ∉ u.host ∧ '%' ∉ u.host ∧ '@' ∉ u.host) ∧
    hostOK u.host = true ∧
    (u.path = [] ∨ ∃ pr, u.path = '/' :: pr) ∧
    ('?' ∉ u.path ∧ '#' ∉ u.path ∧ '%' ∉ u.path) ∧
    '#' ∉ u.rawQuery ∧
    (∀ c ∈ u.host, c ∈ t) ∧ (∀ c ∈ u.path, c ∈ t) ∧ (∀ c ∈ u.rawQuery, c ∈ t) := by
  unfold parseURL at hu
  rw [cutChar_append_left (by decide : '#' ∉ gostr "gemini://") t] at hu
  rcases hcut : cutChar '#' t with _ | ⟨t1, f⟩
  · rw [hcut] at hu
    simp only [Option.map_none', Option.bind_eq_bind] at hu
    have hhash : '#' ∉ t := not_mem_of_cutChar_eq_none hcut
    rcases hnf : parseNoFrag (gostr "gemini://" ++ t) with _ | v
    · rw [hnf] at hu
      cases hu
    · rw [hnf, Option.some_bind] at hu
      cases hu
      exact parseNoFrag_gemini_shape hpct hhash hnf
  · rw [hcut] at hu
    simp only [Option.map_some', Option.bind_eq_bind] at hu
    obtain ⟨ht, hf⟩ := cutChar_eq_some hcut
    have hhash1 : '#' ∉ t1 := hf
    have hsub1 : ∀ x ∈ t1, x ∈ t := by
      intro x hx
      rw [ht]
      simp [hx]
    have hpct1 : '%' ∉ t1 := fun hm => hpct (hsub1 _ hm)
    rcases hnf : parseNoFrag (gostr "gemini://" ++ t1) with _ | v
    · rw [hnf] at hu
      cases hu
    · rw [hnf, Option.some_bind] at hu
      obtain ⟨h1, h2, h3, h4, h5, h6, h7, h8, h9⟩ :=
        parseNoFrag_gemini_shape hpct1 hhash1 hnf
      have hshape := And.intro h1 (And.intro h2 (And.intro h3 (And.intro h4
        (And.intro h5 (And.intro h6 (And.intro
          (fun c hc => hsub1 _ (h7 c hc))
          (And.intro (fun c hc => hsub1 _ (h8 c hc))
            (fun c hc => hsub1 _ (h9 c hc)))))))))
      by_cases hfnil : f = []
      · rw [if_pos hfnil] at hu
        cases hu
        exact hshape
      · rw [if_neg hfnil] at hu
        have hpctf : '%' ∉ f := fun hm => hpct (by rw [ht]; simp [hm])
        rw [unescapePath_of_no_pct hpctf] at hu
        simp only [Option.bind_eq_bind, Option.some_bind, Option.pure_def,
          Option.some.injEq] at hu
        rw [← hu]
        exact hshape

/-- Stripping the default port keeps a sublist of the characters. -/
lemma stripDefaultPort_subset {y : Str} {c : Char} (hc : c ∈ stripDefaultPort y) :
    c ∈ y := by
  rcases stripDefaultPort_cases y with heq | ⟨hy, -⟩
  · rwa [heq] at hc
  · rw [hy]
    simp [hc]

/-- Stripping the default port is idempotent. -/
lemma stripDefaultPort_idem (y : Str) :
    stripDefaultPort (stripDefaultPort y) = stripDefaultPort y := by
  rcases stripDefaultPort_cases y with heq | ⟨-, hnc⟩
  · rw [heq]
    exact heq
  · exact stripDefaultPort_of_colon_free hnc

/-- Whitespace characters sit outside both letter ranges. -/
lemma isSpaceChar_special {d : Char} (hd : isSpaceChar d = true) :
    (d.toNat < 65 ∨ 90 < d.toNat) ∧ (d.toNat < 97 ∨ 122 < d.toNat) := by
  simp only [isSpaceChar, Bool.or_eq_true, beq_iff_eq] at hd
  rcases hd with ((rfl | rfl) | rfl) | rfl <;>
    exact ⟨Or.inl (by decide), Or.inl (by decide)⟩

/-- Whitespace characters are fixed points that `toLower` reflects. -/
lemma toLower_of_space {d c0 : Char} (hd : isSpaceChar d = true)
    (h : c0.toLower = d) : c0 = d := by
  obtain ⟨h1, h2⟩ := isSpaceChar_special hd
  exact (toLower_reflects_special h1 h2 c0).mp h

/-- Reparsing a canonical-shaped string: a gemini URL rebuilt from a
delimiter-free host, an absolute delimiter-free path and a hash-free raw
query parses back to exactly those components. -/
lemma parseURL_rebuild {H pr q : Str}
    (hH1 : '/' ∉ H) (hH2 : '?' ∉ H) (hH3 : '#' ∉ H) (hH4 : '%' ∉ H)
    (hH5 : '@' ∉ H) (hok : hostOK H = true)
    (hp1 : '?' ∉ pr) (hp2 : '#' ∉ pr) (hp3 : '%' ∉ pr)
    (hq : '#' ∉ q) :
    parseURL (gostr "gemini://" ++ H ++ ('/' :: pr) ++
        (if q ≠ [] then '?' :: q else []))
      = some { scheme := gostr "gemini", opq := [], host := H, path := '/' :: pr,
               rawQuery := q, fragment := [] } := by
  have hs : gostr "gemini://" ++ H ++ ('/' :: pr) ++ (if q ≠ [] then '?' :: q else [])
      = gostr "gemini://" ++ (H ++ ('/' :: pr) ++ (if q ≠ [] then '?' :: q else [])) := by
    simp [List.append_assoc]
  have hqQ : ('#' : Char) ∉ (if q ≠ [] then '?' :: q else [] : Str) := by
    by_cases h0 : q = [] <;> simp [h0, hq]
  have hnoq : ('?' : Char) ∉ ('/' :: '/' :: (H ++ ('/' :: pr)) : Str) := by
    intro hm
    rcases List.mem_cons.mp hm with hm | hm
    · exact absurd hm (by decide)
    rcases List.mem_cons.mp hm with hm | hm
    · exact absurd hm (by decide)
    rcases List.mem_append.mp hm with hm | hm
    · exact hH2 hm
    · rcases List.mem_cons.mp hm with hm | hm
      · exact absurd hm (by decide)
      · exact hp1 hm
  have hnf : parseNoFrag (gostr "gemini://" ++
      (H ++ ('/' :: pr) ++ (if q ≠ [] then '?' :: q else [])))
      = some { scheme := gostr "gemini", opq := [], host := H, path := '/' :: pr,
               rawQuery := q, fragment := [] } := by
    unfold parseNoFrag
    rw [getScheme_gemini]
    simp only [Option.bind_eq_bind, Option.some_bind]
    have hqsplit : querySplit ('/' :: '/' ::
        (H ++ ('/' :: pr) ++ (if q ≠ [] then '?' :: q else [])))
        = ('/' :: '/' :: (H ++ ('/' :: pr)), q) := by
      by_cases h0 : q = []
      · subst h0
        simp only [ne_eq, not_true_eq_false, if_false, List.append_nil]
        exact querySplit_no_mark hnoq
      · rw [if_pos h0]
        have he : ('/' :: '/' :: (H ++ ('/' :: pr) ++ '?' :: q) : Str)
            = ('/' :: '/' :: (H ++ ('/' :: pr)) : Str) ++ '?' :: q := by
          simp [List.append_assoc]
        rw [he]
        exact querySplit_sep hnoq
    rw [hqsplit]
    have hpre1 : (gostr "/").isPrefixOf ('/' :: '/' :: (H ++ ('/' :: pr)) : Str) = true := by
      simp [gostr, List.isPrefixOf]
    have hpre2 : (gostr "//").isPrefixOf ('/' :: '/' :: (H ++ ('/' :: pr)) : Str) = true := by
      simp [gostr, List.isPrefixOf]
    rw [hpre1]
    simp only [Bool.true_eq_false, not_true_eq_false, if_false, ite_not]
    rw [hpre2]
    simp only [if_true]
    have hdrop : (('/' :: '/' :: (H ++ ('/' :: pr)) : Str).drop 2) = H ++ ('/' :: pr) := rfl
    rw [hdrop, splitKeepChar_append hH1 (Or.inr ⟨pr, rfl⟩)]
    have hauth : parseAuthority H = some H := by
      unfold parseAuthority
      have hal : afterLastChar '@' H = none := by
        unfold afterLastChar
        rw [if_neg (by simpa using hH5)]
      rw [hal]
      unfold parseHost
      rw [if_pos hok, unescapeHost_of_no_pct hH4]
    have hppct : ('%' : Char) ∉ ('/' :: pr : Str) := by
      intro hm
      rcases List.mem_cons.mp hm with hm | hm
      · exact absurd hm (by decide)
      · exact hp3 hm
    rw [hauth, unescapePath_of_no_pct hppct]
    simp only [Option.bind_eq_bind, Option.some_bind, Option.pure_def]
  rw [hs]
  unfold parseURL
  have hhash : ('#' : Char) ∉ (gostr "gemini://" ++
      (H ++ ('/' :: pr) ++ (if q ≠ [] then '?' :: q else [])) : Str) := by
    intro hm
    rcases List.mem_append.mp hm with hm | hm
    · exact absurd hm (by decide)
    rcases List.mem_append.mp hm with hm | hm
    · rcases List.mem_append.mp hm with hm | hm
      · exact hH3 hm
      · rcases List.mem_cons.mp hm with hm | hm
        · exact absurd hm (by decide)
        · exact hp2 hm
    · exact hqQ hm
  rw [cutChar_eq_none hhash]
  simp only [Option.bind_eq_bind]
  rw [hnf]
  rfl

/-- C9 (amended): `normalizeURL` is idempotent on canonical output for
clean gemini inputs: for every raw string that starts with `gemini://`,
contains no percent sign and no whitespace character, a successful
normalization returns a canonical string whose own normalization succeeds
and returns the same canonical string. -/
theorem normalizeURL_idempotent_on_clean (x : Str) (p : GoURL × Str)
    (hpre : (gostr "gemini://").isPrefixOf x = true)
    (hpct : '%' ∉ x)
    (hsp : ∀ c ∈ x, isSpaceChar c = false)
    (hx : normalizeURL x = some p) :
    (normalizeURL p.2).map Prod.snd = some p.2 := by
  obtain ⟨t, ht⟩ := List.isPrefixOf_iff_prefix.mp hpre
  subst ht
  have hpctt : ('%' : Char) ∉ t := fun hm => hpct (List.mem_append.mpr (Or.inr hm))
  unfold normalizeURL at hx
  rw [trimSpace_of_no_space hsp] at hx
  rcases hpu : parseURL (gostr "gemini://" ++ t) with _ | u0
  · rw [hpu] at hx
    cases hx
  · rw [hpu] at hx
    obtain ⟨hsch, ⟨hh1, hh2, hh3, hh4, hh5⟩, hok, hpshape, ⟨hpq, hph, hppct⟩, hqh,
      hhsub, hpsub, hqsub⟩ := parseURL_gemini_shape hpctt hpu
    have hcanon := normalizeParsed_canonical u0 p hx
    obtain ⟨pr, hP, hpr1, hpr2, hpr3, hprsub⟩ :
        ∃ pr, (if u0.path = [] then gostr "/" else u0.path) = '/' :: pr ∧
          '?' ∉ pr ∧ '#' ∉ pr ∧ '%' ∉ pr ∧ (∀ c ∈ pr, c ∈ t) := by
      rcases hpshape with hnil | ⟨pr0, hcons⟩
      · refine ⟨[], ?_, by simp, by simp, by simp, by simp⟩
        rw [if_pos hnil]
        rfl
      · have hne : ¬ u0.path = [] := by
          rw [hcons]
          simp
        refine ⟨pr0, ?_, ?_, ?_, ?_, ?_⟩
        · rw [if_neg hne, hcons]
        · exact fun hm => hpq (by rw [hcons]; exact List.mem_cons.mpr (Or.inr hm))
        · exact fun hm => hph (by rw [hcons]; exact List.mem_cons.mpr (Or.inr hm))
        · exact fun hm => hppct (by rw [hcons]; exact List.mem_cons.mpr (Or.inr hm))
        · exact fun c hc => hpsub c (by rw [hcons]; exact List.mem_cons.mpr (Or.inr hc))
    rw [hP] at hcanon
    have hnotH : ∀ d : Char, (d.toNat < 65 ∨ 90 < d.toNat) →
        (d.toNat < 97 ∨ 122 < d.toNat) → d ∉ u0.host →
        d ∉ stripDefaultPort (toLowerStr u0.host) :=
      fun d h1 h2 hd hm => toLowerStr_not_mem h1 h2 hd (stripDefaultPort_subset hm)
    have hHok : hostOK (stripDefaultPort (toLowerStr u0.host)) = true :=
      hostOK_strip (hostOK_toLower hok)
    have hreparse := parseURL_rebuild
      (hnotH '/' (by decide) (by decide) hh1)
      (hnotH '?' (by decide) (by decide) hh2)
      (hnotH '#' (by decide) (by decide) hh3)
      (hnotH '%' (by decide) (by decide) hh4)
      (hnotH '@' (by decide) (by decide) hh5)
      hHok hpr1 hpr2 hpr3 hqh
    have hnospace_t : ∀ d : Char, d ∈ t → isSpaceChar d = false :=
      fun d hm => hsp d (List.mem_append.mpr (Or.inr hm))
    have hsp2 : ∀ c ∈ p.2, isSpaceChar c = false := by
      intro c hc
      cases hb : isSpaceChar c with
      | false => rfl
      | true =>
        exfalso
        rw [hcanon] at hc
        rcases List.mem_append.mp hc with hm | hm
        · rcases List.mem_append.mp hm with hm | hm
          · rcases List.mem_append.mp hm with hm | hm
            · have hg9 : ∀ e ∈ gostr "gemini://", isSpaceChar e = false := by decide
              rw [hg9 c hm] at hb
              cases hb
            · have h1 := stripDefaultPort_subset hm
              obtain ⟨c0, hc0, hlc⟩ := List.mem_map.mp h1
              have hc0c : c0 = c := toLower_of_space hb hlc
              rw [← hc0c] at hb
              rw [hnospace_t c0 (hhsub c0 hc0)] at hb
              cases hb
          · rcases List.mem_cons.mp hm with hm | hm
            · subst hm
              exact absurd hb (by decide)
            · rw [hnospace_t c (hprsub c hm)] at hb
              cases hb
        · by_cases h0 : u0.rawQuery = []
          · rw [if_neg (by simp [h0])] at hm
            exact absurd hm (List.not_mem_nil c)
          · rw [if_pos h0] at hm
            rcases List.mem_cons.mp hm with hm | hm
            · subst hm
              exact absurd hb (by decide)
            · rw [hnospace_t c (hqsub c hm)] at hb
              cases hb
    have hHfix : toLowerStr (stripDefaultPort (toLowerStr u0.host))
        = stripDefaultPort (toLowerStr u0.host) :=
      toLowerStr_fixed_of_mem_image
        (fun c hc => toLowerStr_mem_fixed (stripDefaultPort_subset hc))
    unfold normalizeURL
    rw [trimSpace_of_no_space hsp2, hcanon, hreparse]
    simp only []
    rw [normalizeParsed_of_scheme_gem _ rfl]
    simp only [Option.map_some', Option.some.injEq]
    unfold canonicalString
    simp only [hHfix, stripDefaultPort_idem]
    simp

/-- Witness for the amended idempotence theorem at a concrete clean input
carrying host case, the default port and a query. -/
theorem normalizeURL_idempotent_on_clean_witness :
    normalizeURL (gostr "gemini://Example.org:1965/dir/page?q=1")
      = some ({ scheme := gostr "gemini", opq := [], host := gostr "example.org:1965",
                path := gostr "/dir/page", rawQuery := gostr "q=1", fragment := [] },
              gostr "gemini://example.org/dir/page?q=1") ∧
    (normalizeURL (gostr "gemini://example.org/dir/page?q=1")).map Prod.snd
      = some (gostr "gemini://example.org/dir/page?q=1") :=
  ⟨by decide,
   normalizeURL_idempotent_on_clean (gostr "gemini://Example.org:1965/dir/page?q=1")
     ({ scheme := gostr "gemini", opq := [], host := gostr "example.org:1965",
        path := gostr "/dir/page", rawQuery := gostr "q=1", fragment := [] },
      gostr "gemini://example.org/dir/page?q=1")
     (by decide) (by decide) (by decide) (by decide)⟩

/-- C9 (counterexample): `normalizeURL` is not idempotent in general.  A
scheme-less input gains a trailing slash on renormalization; a decoded
`%23` reparses as a fragment delimiter and the canonical shrinks; a space
inside the query survives the first canonical and is trimmed away by the
second normalization. -/
theorem normalizeURL_not_idempotent :
    ((normalizeURL (gostr "example.org")).map Prod.snd
        = some (gostr "gemini://example.org") ∧
      (normalizeURL (gostr "gemini://example.org")).map Prod.snd
        = some (gostr "gemini://example.org/")) ∧
    ((normalizeURL (gostr "gemini://h/a%23b")).map Prod.snd
        = some (gostr "gemini://h/a#b") ∧
      (normalizeURL (gostr "gemini://h/a#b")).map Prod.snd
        = some (gostr "gemini://h/a")) ∧
    ((normalizeURL (gostr "gemini://h/p?q #f")).map Prod.snd
        = some (gostr "gemini://h/p?q ") ∧
      (normalizeURL (gostr "gemini://h/p?q ")).map Prod.snd
        = some (gostr "gemini://h/p?q")) := by
  decide
